import Mathlib

/-!
# Verification of the provider-abstraction and tool-calling orchestration engine

Shallow embedding of the unified AI provider layer (`UniversalTool`, `AIProvider`,
`ClaudeProvider`, `OpenAIProvider`, `GeminiProvider`, `OllamaProvider`, `AIManager`)
and proofs of the specified properties.

Modelling conventions:
* JavaScript values carried opaquely by the engine (tool arguments, tool outputs,
  wire payloads) are modelled as `String`.
* Tool handlers are asynchronous JS functions that may read and mutate external
  state (the workbench); they are modelled as state transformers
  `String → σ → Except String String × σ` over an abstract world type `σ`.
  A thrown exception is `Except.error` carrying the error message.
* `provider.callAPI` suspends on network I/O; for the orchestration-level
  properties it is modelled as a scripted stub `Nat → ParsedResponse` giving the
  parsed response of the n-th invocation (counting from 0).  A transport failure
  aborts `sendMessage` and is out of scope of the orchestration claims.
* Machine numbers that stay small non-negative integers (message ids,
  iteration counters) are modelled as `Nat`.
* `structuredClone` of an immutable record is the identity in a value semantics.
-/

set_option maxHeartbeats 1600000

namespace VibeCoder

/-- Truthiness of an optional JS string: `undefined`, `null` and `""` are falsy. -/
def strTruthy : Option String → Bool
  | some s => s ≠ ""
  | none => false

/-- JS `[...new Set(xs)]`: deduplicate keeping the first occurrence of each element. -/
def jsSetDedup (xs : List String) : List String :=
  xs.foldl (fun acc x => if x ∈ acc then acc else acc ++ [x]) []

/-- Message id, which in the source may be a number or a (stored) string.
Ids produced by the engine are always numbers. -/
inductive MsgId where
  | num (n : Nat)
  | str (s : String)
deriving DecidableEq, Repr

/-- `parseInt(s, 10)` modelled for non-negative decimal strings: the longest
digit prefix, `none` when there is no digit (JS `NaN`). -/
def parseIntDec (s : String) : Option Nat :=
  let digits := s.data.takeWhile Char.isDigit
  if digits.isEmpty then none
  else some (digits.foldl (fun n c => n * 10 + (c.toNat - 48)) 0)

/-- One content block of a canonical message: text, a tool invocation, or a tool
result.  The implementation additionally tags the synthetic summary text lines
produced by `getHistoryView` with a display-only part metadata
`{ toolSummary: true }`; that tag is consumed nowhere in the engine and is not
modelled. -/
inductive ContentBlock where
  | text (text : String)
  | toolUse (id : String) (name : String) (input : String)
  | toolResult (tool_use_id : String) (content : String) (is_error : Bool)
deriving DecidableEq, Repr

/-- Message content: either a plain string or an array of content blocks. -/
inductive Content where
  | str (s : String)
  | blocks (parts : List ContentBlock)
deriving DecidableEq, Repr

/-- Aggregated success/failure information of a batch of tool calls
(`buildToolBatchSummary` result shape). -/
structure SummaryInfo where
  successCount : Nat := 0
  failureCount : Nat := 0
  successNames : List String := []
  failureNames : List String := []
deriving DecidableEq, Repr

/-- Message-level metadata object.  Absent fields of the JS object are `none`
(respectively `false` for the boolean flag, which is only ever read for
truthiness). -/
structure Metadata where
  toolCallIds : Option (List String) := none
  toolSummary : Bool := false
  summaryInfo : Option SummaryInfo := none
  summaryToolIds : Option (List String) := none
deriving DecidableEq, Repr

/-- A conversation message.  `_id` is the monotonically assigned identifier;
`hasNonSummaryText`, `summaryInfo` and `summaryToolIds` are the extra fields
that `getHistoryView` attaches to the transformed (cloned) messages of the
minimized view; canonical stored messages never carry them. -/
structure Message where
  role : String
  content : Content
  _id : Option MsgId := none
  metadata : Option Metadata := none
  hasNonSummaryText : Option Bool := none
  summaryInfo : Option SummaryInfo := none
  summaryToolIds : Option (List String) := none
deriving DecidableEq, Repr

/-- A tool call as parsed out of a provider response. -/
structure ToolCall where
  id : String
  name : String
  arguments : String
deriving DecidableEq, Repr

/-- Parsed provider response (the orchestration-relevant part of the object
returned by each provider's `parseResponse`; the `usage`/`raw` bookkeeping
fields play no role in the verified properties and are not modelled). -/
structure ParsedResponse where
  content : String := ""
  toolCalls : List ToolCall := []
deriving DecidableEq, Repr

/-- Universal tool definition (provider-agnostic).  The JSON-schema `parameters`
are carried opaquely. -/
structure UniversalTool (σ : Type) where
  name : String
  description : String := ""
  parameters : String := ""
  handler : String → σ → Except String String × σ
  category : String := "general"

/-- Result record produced by `executeToolCalls` for one call
(`{ id, result, isError }`), together with the `messageId` attached by
`sendMessage` for UI display. -/
structure ToolResultRec where
  id : String
  result : String
  isError : Bool
  messageId : Option MsgId := none
deriving DecidableEq, Repr

/-- `AIProvider.executeToolCalls`: run the calls sequentially in the given
order, looking each tool up by name; a handler exception is converted into an
`isError` result `"Error: <message>"`, an unregistered name into
`"Unknown tool: <name>"`; later calls still execute. -/
def executeToolCalls {σ : Type} (toolCalls : List ToolCall)
    (availableTools : List (UniversalTool σ)) (s : σ) : List ToolResultRec × σ :=
  match toolCalls with
  | [] => ([], s)
  | call :: rest =>
    match availableTools.find? (fun t => t.name == call.name) with
    | some tool =>
      let hr := tool.handler call.arguments s
      match hr.1 with
      | Except.ok result =>
        let rest' := executeToolCalls rest availableTools hr.2
        ({ id := call.id, result := result, isError := false } :: rest'.1, rest'.2)
      | Except.error msg =>
        let rest' := executeToolCalls rest availableTools hr.2
        ({ id := call.id, result := "Error: " ++ msg, isError := true } :: rest'.1, rest'.2)
    | none =>
      let rest' := executeToolCalls rest availableTools s
      ({ id := call.id, result := "Unknown tool: " ++ call.name, isError := true } :: rest'.1,
        rest'.2)

/-- Per-tool metadata collected by `getHistoryView` (`toolInfo` entries). -/
structure ToolMeta where
  name : Option String := none
  id : Option String := none
  isError : Bool := false
deriving DecidableEq, Repr

/-- The `toolInfo` JS `Map`, observed only through `get`; insertion order is
unobservable, so `set` is modelled by prepending and `get` by first match. -/
abbrev ToolInfoMap := List (String × ToolMeta)

/-- `Map.get`. -/
def mapGet (m : ToolInfoMap) (k : String) : Option ToolMeta :=
  (m.find? (fun p => p.1 == k)).map (·.2)

/-- `Map.set`. -/
def mapSet (m : ToolInfoMap) (k : String) (v : ToolMeta) : ToolInfoMap :=
  (k, v) :: m

/-- Index of the last element satisfying `p` (the source's backwards `for` loops
returning `-1` when nothing matches, modelled as `none`). -/
def findLastIdx {α : Type} (p : α → Bool) : List α → Option Nat
  | [] => none
  | x :: rest =>
    match findLastIdx p rest with
    | some j => some (j + 1)
    | none => if p x then some 0 else none

/-- An assistant message whose array content holds at least one `tool_use`
block (the predicate of `findLastToolInteractionIndex`). -/
def isToolAssistant (m : Message) : Bool :=
  m.role == "assistant" &&
    match m.content with
    | Content.blocks parts =>
      parts.any fun p => match p with | ContentBlock.toolUse .. => true | _ => false
    | _ => false

/-- `AIManager.findLastToolInteractionIndex`. -/
def findLastToolInteractionIndex (history : List Message) : Option Nat :=
  findLastIdx isToolAssistant history

/-- A user message whose content is a plain string. -/
def isUserTextMessage (m : Message) : Bool :=
  m.role == "user" && match m.content with | Content.str _ => true | _ => false

/-- `AIManager.findLatestUserTextMessageIndex`. -/
def findLatestUserTextMessageIndex (messages : List Message) : Option Nat :=
  findLastIdx isUserTextMessage messages

/-- `AIManager.sliceHistoryByUserMessages`: keep the suffix starting at the
`limit`-th most recent user text message (the whole history when there are
fewer, or when `limit` is `0`). -/
def sliceHistoryByUserMessages (history : List Message) (limit : Nat) : List Message :=
  if limit = 0 then history
  else
    let userIdxs := ((List.range history.length).filter fun i =>
      match history.get? i with
      | some m => isUserTextMessage m
      | none => false).reverse
    match userIdxs.get? (limit - 1) with
    | some i => history.drop i
    | none => history

/-- `AIManager.cloneMessage`: `structuredClone`, the identity on immutable values. -/
def cloneMessage (message : Message) : Message := message

/-- `AIManager.buildToolBatchSummary`: accumulate success/failure counts and the
(truthy) names of a batch of tool metas, in order. -/
def buildToolBatchSummary (toolMetas : List ToolMeta) : SummaryInfo :=
  toolMetas.foldl
    (fun summary meta =>
      if meta.isError then
        { summary with
          failureCount := summary.failureCount + 1,
          failureNames := summary.failureNames ++
            (if strTruthy meta.name then [meta.name.getD ""] else []) }
      else
        { summary with
          successCount := summary.successCount + 1,
          successNames := summary.successNames ++
            (if strTruthy meta.name then [meta.name.getD ""] else []) })
    {}

/-- `AIManager.buildToolSummaryText`: the one or two synthetic summary lines. -/
def buildToolSummaryText (summaryInfo : SummaryInfo) : List String :=
  (if summaryInfo.successCount > 0 then
    if summaryInfo.successCount = 1 then
      ["Successfully called tool " ++ ((summaryInfo.successNames.find? (· ≠ "")).getD "tool")]
    else
      ["Successfully called " ++ toString summaryInfo.successCount ++ " tools"]
  else []) ++
  (if summaryInfo.failureCount > 0 then
    if summaryInfo.failureCount = 1 then
      ["Tool " ++ ((summaryInfo.failureNames.find? (· ≠ "")).getD "tool") ++ " failed"]
    else
      [("Failed " ++ toString summaryInfo.failureCount ++ " tools") ++
        (if summaryInfo.failureNames.length > 0 then
          " (" ++ String.intercalate ", " summaryInfo.failureNames ++ ")"
        else "")]
  else [])

/-- `AIManager.cloneSummaryInfo`. -/
def cloneSummaryInfo (info : SummaryInfo) : SummaryInfo :=
  { successCount := info.successCount
    failureCount := info.failureCount
    successNames := info.successNames
    failureNames := info.failureNames }

/-- `toolInfo` collection step for one block of an assistant message. -/
def toolInfoUseStep (acc : ToolInfoMap) (p : ContentBlock) : ToolInfoMap :=
  match p with
  | ContentBlock.toolUse id name _ => mapSet acc id { name := some name, id := some id }
  | _ => acc

/-- `toolInfo` collection step for one block of a user message. -/
def toolInfoResultStep (acc : ToolInfoMap) (p : ContentBlock) : ToolInfoMap :=
  match p with
  | ContentBlock.toolResult tuid _ isErr =>
    if tuid ≠ "" then
      let entry := (mapGet acc tuid).getD {}
      let entry := { entry with isError := isErr }
      let entry := if strTruthy entry.id then entry else { entry with id := some tuid }
      mapSet acc tuid entry
    else acc
  | _ => acc

/-- First pass of `getHistoryView(true)` over one message: record the name of
every `tool_use` block and the error status of every `tool_result` block in the
`toolInfo` map (a canonical `tool_result` block carries no `name` field, so the
`!entry.name && part.name` repair is a no-op). -/
def toolInfoOfMessage (acc : ToolInfoMap) (msg : Message) : ToolInfoMap :=
  if msg.role == "assistant" then
    match msg.content with
    | Content.blocks parts => parts.foldl toolInfoUseStep acc
    | _ => acc
  else if msg.role == "user" then
    match msg.content with
    | Content.blocks parts => parts.foldl toolInfoResultStep acc
    | _ => acc
  else acc

/-- The `toolInfo` map over the whole (possibly sliced) history. -/
def buildToolInfo (history : List Message) : ToolInfoMap :=
  history.foldl toolInfoOfMessage []

/-- Accumulator of the transformation of one tool-bearing assistant message
(`transformed.content`, `transformed.hasNonSummaryText`,
`transformed.summaryInfo`, `transformed.summaryToolIds`, `pendingToolBatch`). -/
structure TransformSt where
  content : List ContentBlock := []
  hasNonSummaryText : Bool := false
  summaryInfo : Option SummaryInfo := none
  summaryToolIds : List String := []
  pending : List ToolMeta := []
deriving DecidableEq, Repr

/-- `appendBatch`: fold the pending tool batch into the summary accumulator. -/
def appendBatch (st : TransformSt) : TransformSt :=
  if st.pending.isEmpty then st
  else
    let batchInfo := buildToolBatchSummary st.pending
    let info := st.summaryInfo.getD {}
    let info :=
      { successCount := info.successCount + batchInfo.successCount
        failureCount := info.failureCount + batchInfo.failureCount
        successNames := info.successNames ++ batchInfo.successNames
        failureNames := info.failureNames ++ batchInfo.failureNames }
    let batchIds := st.pending.filterMap fun m => if strTruthy m.id then m.id else none
    { st with
      summaryInfo := some info
      summaryToolIds := st.summaryToolIds ++ batchIds
      pending := [] }

/-- Transformation of the content parts of one earlier tool-bearing assistant
message: text parts flush the pending batch and pass through, `tool_use` parts
queue their metadata, other part kinds are dropped. -/
def transformPart (toolInfo : ToolInfoMap) (st : TransformSt) : ContentBlock → TransformSt
  | ContentBlock.text t =>
    let st := appendBatch st
    { st with content := st.content ++ [ContentBlock.text t], hasNonSummaryText := true }
  | ContentBlock.toolUse id name _ =>
    let meta := (mapGet toolInfo id).getD { name := some name, isError := false, id := some id }
    let meta := if strTruthy meta.id then meta else { meta with id := some id }
    { st with pending := st.pending ++ [meta] }
  | ContentBlock.toolResult .. => st

/-- Whether a message already in `abridged` absorbs a following summary-only
message (`prev && prev.metadata?.toolSummary && prev.hasNonSummaryText === false`). -/
def mergeCond (prev : Message) : Bool :=
  (match prev.metadata with | some md => md.toolSummary | none => false) &&
    prev.hasNonSummaryText == some false

/-- The summary texts as content blocks. -/
def summaryTextBlocks (info : SummaryInfo) : List ContentBlock :=
  (buildToolSummaryText info).map ContentBlock.text

/-- Combination of two summary infos (the in-place merge of
`prev.metadata.summaryInfo` with the new summary). -/
def addSummaryInfo (a b : SummaryInfo) : SummaryInfo :=
  { successCount := a.successCount + b.successCount
    failureCount := a.failureCount + b.failureCount
    successNames := a.successNames ++ b.successNames
    failureNames := a.failureNames ++ b.failureNames }

/-- Final push of a transformed assistant message (`if (transformed.content.length
> 0) { transformed.hasNonSummaryText = !!...; if (transformed.metadata?.toolSummary)
{ ... } abridged.push(transformed); }`). -/
def pushTransformed (abridged : List Message) (msg : Message) (st : TransformSt)
    (content : List ContentBlock) (metadata : Option Metadata) : List Message :=
  if content ≠ [] then
    let marked := match metadata with | some md => md.toolSummary | none => false
    let hNST := if marked then false else st.hasNonSummaryText
    let metadata :=
      if marked && st.summaryToolIds ≠ [] &&
          (match metadata with | some md => md.summaryToolIds.isNone | none => true) then
        some { metadata.getD {} with summaryToolIds := some (jsSetDedup st.summaryToolIds) }
      else metadata
    abridged ++ [{ msg with
      content := Content.blocks content
      metadata := metadata
      hasNonSummaryText := some hNST
      summaryInfo := st.summaryInfo
      summaryToolIds := some st.summaryToolIds }]
  else abridged

/-- Transformation of one earlier (not most recent) tool-capable assistant
message with array content: collapse its `tool_use` blocks into summary text
lines, mark summary-only results and merge them into a directly preceding
summary-only message. -/
def transformAssistant (toolInfo : ToolInfoMap) (abridged : List Message)
    (msg : Message) (parts : List ContentBlock) : List Message :=
  let st0 : TransformSt := { summaryToolIds := msg.summaryToolIds.getD [] }
  let st := appendBatch (parts.foldl (transformPart toolInfo) st0)
  match st.summaryInfo with
  | some info =>
    let summaryTexts := buildToolSummaryText info
    let content := st.content ++ summaryTexts.map ContentBlock.text
    if !st.hasNonSummaryText && summaryTexts.length > 0 then
      let summaryMeta := cloneSummaryInfo info
      let md := { msg.metadata.getD {} with toolSummary := true, summaryInfo := some summaryMeta }
      let md :=
        if st.summaryToolIds ≠ [] then
          { md with summaryToolIds := some (jsSetDedup st.summaryToolIds) }
        else md
      match abridged.getLast? with
      | some prev =>
        if mergeCond prev then
          let prevInfo := ((prev.metadata.getD {}).summaryInfo).getD {}
          let combined := addSummaryInfo prevInfo summaryMeta
          let prev' :=
            { prev with
              content := Content.blocks (summaryTextBlocks combined)
              metadata := some { prev.metadata.getD {} with summaryInfo := some combined }
              hasNonSummaryText := some false }
          abridged.dropLast ++ [prev']
        else
          pushTransformed abridged msg st content (some md)
      | none =>
        pushTransformed abridged msg st content (some md)
    else
      pushTransformed abridged msg st content msg.metadata
  | none =>
    pushTransformed abridged msg st st.content msg.metadata

/-- One step of the minimizing loop of `getHistoryView(true)`: process the
message at index `i`, growing (or, when merging, mutating the tail of) the
`abridged` accumulator. -/
def minimizeStep (toolInfo : ToolInfoMap) (lastToolMessageIndex : Option Nat)
    (lastToolUseIds : Option (List String)) (abridged : List Message) (i : Nat)
    (msg : Message) : List Message :=
  if lastToolMessageIndex == some i then
    abridged ++ [cloneMessage msg]
  else
    match msg.content with
    | Content.blocks parts =>
      if msg.role == "assistant" then
        transformAssistant toolInfo abridged msg parts
      else if msg.role == "user" then
        match parts.head? with
        | some (ContentBlock.toolResult ..) =>
          let isLastToolResult :=
            match lastToolUseIds with
            | some ids =>
              parts.any fun p =>
                match p with
                | ContentBlock.toolResult tuid _ _ => ids.contains tuid
                | _ => false
            | none => false
          if isLastToolResult then abridged ++ [cloneMessage msg] else abridged
        | _ => abridged ++ [cloneMessage msg]
      else abridged ++ [cloneMessage msg]
    | _ => abridged ++ [cloneMessage msg]

/-- The minimizing loop over the history, threading the message index. -/
def minimizeLoop (toolInfo : ToolInfoMap) (lastToolMessageIndex : Option Nat)
    (lastToolUseIds : Option (List String)) :
    Nat → List Message → List Message → List Message
  | _, [], abridged => abridged
  | i, msg :: rest, abridged =>
    minimizeLoop toolInfo lastToolMessageIndex lastToolUseIds (i + 1) rest
      (minimizeStep toolInfo lastToolMessageIndex lastToolUseIds abridged i msg)

/-- The `tool_use` ids of the message at `lastToolMessageIndex`. -/
def lastToolUseIdsOf (history : List Message) (lastToolMessageIndex : Option Nat) :
    Option (List String) :=
  match lastToolMessageIndex with
  | some i =>
    match history.get? i with
    | some entry =>
      if entry.role == "assistant" then
        match entry.content with
        | Content.blocks parts =>
          some (parts.filterMap fun p =>
            match p with | ContentBlock.toolUse id _ _ => some id | _ => none)
        | _ => none
      else none
    | none => none
  | none => none

/-- The token-minimizing projection of `getHistoryView(true)` applied to the
(possibly sliced) history. -/
def minimizeHistory (history : List Message) : List Message :=
  let toolInfo := buildToolInfo history
  let lastToolMessageIndex := findLastToolInteractionIndex history
  let lastToolUseIds := lastToolUseIdsOf history lastToolMessageIndex
  minimizeLoop toolInfo lastToolMessageIndex lastToolUseIds 0 history []

/-- `AIManager.getHistoryView` as a function of the canonical history
(`this.conversationHistory`). -/
def getHistoryViewFn (full : List Message) (minimizeTokens : Bool := false)
    (limitMessages : Nat := 0) : List Message :=
  let history :=
    if limitMessages > 0 then sliceHistoryByUserMessages full limitMessages else full
  let history :=
    if limitMessages > 0 then
      match findLastToolInteractionIndex full with
      | some lastToolIdx =>
        let baseStartIdx := full.length - history.length
        if lastToolIdx < baseStartIdx then full.drop lastToolIdx else history
      | none => history
    else history
  if !minimizeTokens then history.map cloneMessage
  else minimizeHistory history

/-- A provider's `callAPI`, modelled as a scripted stub returning the parsed
response of the n-th invocation. -/
abbrev Provider := Nat → ParsedResponse

/-- The unified AI manager state. -/
structure AIManager (σ : Type) where
  providers : List (String × Provider) := []
  currentProvider : Option String := none
  tools : List (UniversalTool σ) := []
  conversationHistory : List Message := []
  systemPrompt : Option String := none
  messageIdCounter : Nat := 0

/-- `AIManager.registerProvider` (a JS object property assignment: replace the
entry when the name is present, add it otherwise). -/
def AIManager.registerProvider {σ : Type} (m : AIManager σ) (name : String)
    (provider : Provider) : AIManager σ :=
  let providers :=
    if (m.providers.find? (fun p => p.1 == name)).isSome then
      m.providers.map fun p => if p.1 == name then (name, provider) else p
    else m.providers ++ [(name, provider)]
  { m with
    providers := providers
    currentProvider := if m.currentProvider.isNone then some name else m.currentProvider }

/-- `AIManager.getProvider`. -/
def AIManager.getProvider {σ : Type} (m : AIManager σ) : Option Provider :=
  match m.currentProvider with
  | some name => (m.providers.find? (fun p => p.1 == name)).map (·.2)
  | none => none

/-- `AIManager.registerTool`. -/
def AIManager.registerTool {σ : Type} (m : AIManager σ) (name description parameters : String)
    (handler : String → σ → Except String String × σ) (category : String := "general") :
    AIManager σ :=
  { m with tools := m.tools ++
      [{ name := name
         description := description
         parameters := parameters
         handler := handler
         category := category }] }

/-- `AIManager.setSystemPrompt`. -/
def AIManager.setSystemPrompt {σ : Type} (m : AIManager σ) (prompt : String) : AIManager σ :=
  { m with systemPrompt := some prompt }

/-- `AIManager.clearHistory`. -/
def AIManager.clearHistory {σ : Type} (m : AIManager σ) : AIManager σ :=
  { m with conversationHistory := [], messageIdCounter := 0 }

/-- `AIManager.ensureMessageId` on one message, threading `messageIdCounter`:
a finite numeric id only bumps the counter; a string id is parsed
(`parseInt(existingId, 10)`) and normalized in place; otherwise the message
receives the next fresh id. -/
def ensureMessageId (counter : Nat) (msg : Message) : Nat × Message :=
  match msg._id with
  | some (MsgId.num n) => (if n > counter then n else counter, msg)
  | some (MsgId.str s) =>
    match parseIntDec s with
    | some n => (if n > counter then n else counter, { msg with _id := some (MsgId.num n) })
    | none => (counter + 1, { msg with _id := some (MsgId.num (counter + 1)) })
  | none => (counter + 1, { msg with _id := some (MsgId.num (counter + 1)) })

/-- `AIManager.ensureHistoryMessageIds`: the id-repair pass over the history. -/
def ensureHistoryMessageIds (counter : Nat) : List Message → Nat × List Message
  | [] => (counter, [])
  | msg :: rest =>
    let em := ensureMessageId counter msg
    let er := ensureHistoryMessageIds em.1 rest
    (er.1, em.2 :: er.2)

/-- `AIManager.addMessage`: append a fresh `{ role, content }` message, giving
it the next id. -/
def AIManager.addMessage {σ : Type} (m : AIManager σ) (role : String) (content : Content) :
    Message × AIManager σ :=
  let message : Message := { role := role, content := content }
  let em := ensureMessageId m.messageIdCounter message
  (em.2, { m with
    messageIdCounter := em.1
    conversationHistory := m.conversationHistory ++ [em.2] })

/-- JS `String.prototype.trimEnd()`: drop trailing whitespace. -/
def jsTrimEnd (s : String) : String :=
  String.mk (s.data.reverse.dropWhile Char.isWhitespace).reverse

/-- `AIManager.buildAugmentedPrompt`: prefix the outgoing user text with the
`code_summary` tool's output (the handler, an async JS function, is awaited;
calling it with no argument is modelled as the argument `""`).  A non-string
input is returned unchanged.  The handler returns a string in this model, so
the `JSON.stringify`/`returned no data` branches for non-string results are
not reachable. -/
def buildAugmentedPrompt {σ : Type} (tools : List (UniversalTool σ)) (originalMessage : Content)
    (s : σ) : Content × σ :=
  match originalMessage with
  | Content.blocks _ => (originalMessage, s)
  | Content.str orig =>
    let step : String × σ :=
      match tools.find? (fun t => t.name == "code_summary") with
      | some tool =>
        let hr := tool.handler "" s
        match hr.1 with
        | Except.ok summary => (summary, hr.2)
        | Except.error msg => ("[Error generating summary: " ++ msg ++ "]", hr.2)
      | none => ("[code_summary tool unavailable]", s)
    let cleanedSummary := jsTrimEnd step.1
    let finalSummary := if cleanedSummary = "" then "[No summary generated]" else cleanedSummary
    (Content.str ("Code summary:\n" ++ finalSummary ++ "\n\n" ++ orig), step.2)

/-- The recognized `options` of `sendMessage`.  The `onProgress` and
`prepareRateLimit` callbacks only observe the run (a `prepareRateLimit`
failure is caught and logged) and are modelled as absent; `model`,
`maxTokens` and `temperature` are forwarded to the provider stub and play no
role here. -/
structure SendOptions where
  maxIterations : Option Nat := none
  minimizeTokens : Bool := false
  limitMessages : Nat := 0
  preAddedUserMessage : Bool := false
deriving DecidableEq, Repr

/-- `MAX_ITERATIONS = options.maxIterations || (isContinuation ? 20 : 10)`
(`0` is falsy). -/
def effectiveMaxIterations (options : SendOptions) (isContinuation : Bool) : Nat :=
  match options.maxIterations with
  | some n => if n = 0 then (if isContinuation then 20 else 10) else n
  | none => if isContinuation then 20 else 10

/-- A tool call tagged with the id of the assistant message that carried it. -/
structure ToolCallMeta where
  id : String
  name : String
  arguments : String
  messageId : Option MsgId := none
deriving DecidableEq, Repr

/-- The provider-response fields threaded through the loop as `finalResponse`
before the aggregate fields are attached. -/
structure RespState where
  content : String := ""
  toolCalls : List ToolCall := []
  assistantMessageId : Option MsgId := none
  toolResultMessageId : Option MsgId := none
deriving DecidableEq, Repr

/-- The value returned by `sendMessage`. -/
structure SendResult where
  content : String := ""
  toolCalls : List ToolCall := []
  needsContinuation : Bool := false
  iterationsUsed : Option Nat := none
  maxIterations : Option Nat := none
  assistantMessageId : Option MsgId := none
  toolResultMessageId : Option MsgId := none
  allToolCalls : List ToolCallMeta := []
  allToolResults : List ToolResultRec := []
deriving DecidableEq, Repr

/-- State of the `while` loop of `sendMessage`. -/
structure LoopSt (σ : Type) where
  messages : List Message
  history : List Message
  counter : Nat
  world : σ
  iterations : Nat := 0
  continueProcessing : Bool := true
  finalResponse : Option RespState := none
  allToolCalls : List ToolCallMeta := []
  allToolResults : List ToolResultRec := []

/-- The assistant message appended for a response carrying tool calls: any
returned text first, then one `ToolUse` block per call in the returned order,
tagged with `metadata.toolCallIds` and the next fresh id. -/
def loopAssistantMessage (counter : Nat) (response : ParsedResponse) : Nat × Message :=
  let assistantContent :=
    (if response.content ≠ "" then [ContentBlock.text response.content] else []) ++
      response.toolCalls.map fun toolCall =>
        ContentBlock.toolUse toolCall.id toolCall.name toolCall.arguments
  let assistantMessage : Message := { role := "assistant", content := Content.blocks assistantContent }
  let ea := ensureMessageId counter assistantMessage
  (ea.1, { ea.2 with
    metadata := some { toolCallIds := some (response.toolCalls.map (·.id)) } })

/-- The user message holding one `ToolResult` block per executed call,
correlated by id, tagged with `metadata.toolCallIds` and the next fresh id. -/
def loopToolResultMessage (counter : Nat) (toolResults : List ToolResultRec) : Nat × Message :=
  let toolResultMessage : Message :=
    { role := "user"
      content := Content.blocks (toolResults.map fun r =>
        ContentBlock.toolResult r.id r.result r.isError) }
  let et := ensureMessageId counter toolResultMessage
  (et.1, { et.2 with
    metadata := some { toolCallIds := some (toolResults.map (·.id)) } })

/-- One iteration of the `sendMessage` loop: call the provider; when the
response carries tool calls, append the assistant tool-use message, execute
the calls, append the correlated tool-result user message and continue;
otherwise append the final assistant text (if any) and stop. -/
def sendStep {σ : Type} (script : Provider) (tools : List (UniversalTool σ))
    (st : LoopSt σ) : LoopSt σ :=
  let response := script st.iterations
  let st := { st with iterations := st.iterations + 1 }
  if response.toolCalls ≠ [] then
    let ea := loopAssistantMessage st.counter response
    let assistantMessage := ea.2
    let ex := executeToolCalls response.toolCalls tools st.world
    let toolResults := ex.1
    let et := loopToolResultMessage ea.1 toolResults
    let toolResultMessage := et.2
    let toolCallsWithMeta := response.toolCalls.map fun c =>
      ({ id := c.id, name := c.name, arguments := c.arguments,
         messageId := assistantMessage._id } : ToolCallMeta)
    let toolResultsWithMeta := toolResults.map fun r =>
      { r with messageId := toolResultMessage._id }
    { st with
      messages := st.messages ++ [assistantMessage, toolResultMessage]
      history := st.history ++ [assistantMessage, toolResultMessage]
      counter := et.1
      world := ex.2
      allToolCalls := st.allToolCalls ++ toolCallsWithMeta
      allToolResults := st.allToolResults ++ toolResultsWithMeta
      finalResponse := some
        { content := response.content
          toolCalls := response.toolCalls
          assistantMessageId := assistantMessage._id
          toolResultMessageId := toolResultMessage._id } }
  else
    let st := { st with continueProcessing := false }
    if response.content ≠ "" then
      let assistantMessage : Message :=
        { role := "assistant"
          content := Content.str response.content }
      let ea := ensureMessageId st.counter assistantMessage
      { st with
        history := st.history ++ [ea.2]
        counter := ea.1
        finalResponse := some
          { content := response.content
            toolCalls := response.toolCalls
            assistantMessageId := ea.2._id } }
    else
      { st with
        finalResponse := some
          { content := response.content
            toolCalls := response.toolCalls } }

/-- `while (continueProcessing && iterations < MAX_ITERATIONS)`, with
`fuel = MAX_ITERATIONS - iterations`. -/
def sendLoop {σ : Type} (script : Provider) (tools : List (UniversalTool σ)) :
    Nat → LoopSt σ → LoopSt σ
  | 0, st => st
  | fuel + 1, st =>
    if st.continueProcessing then sendLoop script tools fuel (sendStep script tools st)
    else st

/-- The fallback notice synthesized when the budget is exhausted with no text. -/
def iterationLimitNotice (maxIterations : Nat) : String :=
  "⚠️ Reached tool iteration limit (" ++ toString maxIterations ++
    " iterations). The task may not be complete. Click \"Continue Tools\" to resume processing."

/-- Everything `sendMessage` does before the provider loop: repair history ids,
append the user message unless this is a continuation (or the caller pre-added
it), build the outbound view, prefix the system prompt, and augment the most
recent user text message with the code summary.  Returns the updated manager
state, the outbound message list and the world state. -/
def AIManager.sendPrelude {σ : Type} (m : AIManager σ) (userMessage : String)
    (options : SendOptions) (s : σ) : AIManager σ × List Message × σ :=
  let eh := ensureHistoryMessageIds m.messageIdCounter m.conversationHistory
  let isContinuation := userMessage == "__continue_tools__"
  let hb : Nat × List Message :=
    if !isContinuation && !options.preAddedUserMessage then
      let message : Message := { role := "user", content := Content.str userMessage }
      let em := ensureMessageId eh.1 message
      (em.1, eh.2 ++ [em.2])
    else (eh.1, eh.2)
  let counterB := hb.1
  let historyB := hb.2
  let messages0 := getHistoryViewFn historyB options.minimizeTokens options.limitMessages
  let messages1 :=
    match m.systemPrompt with
    | some sp =>
      if (messages0.head?.map (·.role)).getD "" ≠ "system" then
        ({ role := "system", content := Content.str sp } : Message) :: messages0
      else messages0
    | none => messages0
  let ms : List Message × σ :=
    if !isContinuation then
      match findLatestUserTextMessageIndex messages1 with
      | some targetIndex =>
        match messages1.get? targetIndex with
        | some target =>
          let ap := buildAugmentedPrompt m.tools target.content s
          if (match ap.1 with | Content.str _ => true | _ => false) &&
              ap.1 ≠ target.content then
            (messages1.set targetIndex { target with content := ap.1 }, ap.2)
          else (messages1, ap.2)
        | none => (messages1, s)
      | none => (messages1, s)
    else (messages1, s)
  ({ m with conversationHistory := historyB, messageIdCounter := counterB }, ms.1, ms.2)

/-- The outcome of one `sendMessage` call: the returned result, the manager and
world states after the call, and the number of `callAPI` invocations performed
(an observation of the run, counted by the loop's `iterations`). -/
structure SendOutcome (σ : Type) where
  result : SendResult
  manager : AIManager σ
  world : σ
  providerCalls : Nat

/-- `AIManager.sendMessage`: the bounded iterative tool-calling protocol.
Fails (throws) only when no provider is configured; a provider transport
failure is outside this model (the scripted `callAPI` stub always returns a
parsed response). -/
def AIManager.sendMessage {σ : Type} (m : AIManager σ) (userMessage : String)
    (options : SendOptions) (s : σ) : Except String (SendOutcome σ) :=
  match m.getProvider with
  | none => Except.error "No AI provider configured"
  | some provider =>
    let isContinuation := userMessage == "__continue_tools__"
    let pre := m.sendPrelude userMessage options s
    let m1 := pre.1
    let maxIterations := effectiveMaxIterations options isContinuation
    let st0 : LoopSt σ :=
      { messages := pre.2.1
        history := m1.conversationHistory
        counter := m1.messageIdCounter
        world := pre.2.2 }
    let stF := sendLoop provider m.tools maxIterations st0
    let base := stF.finalResponse.getD {}
    let hitLimit := stF.iterations ≥ maxIterations && stF.continueProcessing
    let result : SendResult :=
      if hitLimit then
        { content := if base.content = "" then iterationLimitNotice maxIterations else base.content
          toolCalls := base.toolCalls
          needsContinuation := true
          iterationsUsed := some stF.iterations
          maxIterations := some maxIterations
          assistantMessageId := base.assistantMessageId
          toolResultMessageId := base.toolResultMessageId
          allToolCalls := stF.allToolCalls
          allToolResults := stF.allToolResults }
      else
        { content := base.content
          toolCalls := base.toolCalls
          assistantMessageId := base.assistantMessageId
          toolResultMessageId := base.toolResultMessageId
          allToolCalls := stF.allToolCalls
          allToolResults := stF.allToolResults }
    Except.ok
      { result := result
        manager := { m1 with
          conversationHistory := stF.history
          messageIdCounter := stF.counter }
        world := stF.world
        providerCalls := stF.iterations }

/-- The projection as the method call on the manager: it reads the canonical
store, mutates only local clones (`cloneMessage`), and leaves the manager
unchanged. -/
def AIManager.getHistoryViewM {σ : Type} (m : AIManager σ) (minimizeTokens : Bool := false)
    (limitMessages : Nat := 0) : List Message × AIManager σ :=
  (getHistoryViewFn m.conversationHistory minimizeTokens limitMessages, m)

/-- `AIManager.getHistory`. -/
def AIManager.getHistory {σ : Type} (m : AIManager σ) : List Message :=
  m.conversationHistory

/-! ## Provider response parsing

The wire-level response objects are modelled structurally; a field that may be
absent from the JSON object is an `Option`.  A JS `TypeError` raised while
parsing is `Except.error`; an adapter that can never throw on an HTTP-success
payload is a total function. -/

/-- One block of a Claude wire response's `content` array. -/
structure ClaudeWireBlock where
  type : String
  text : String := ""
  id : String := ""
  name : String := ""
  input : String := ""
deriving DecidableEq, Repr

/-- A Claude HTTP-success payload; `content := none` models a response object
missing its `content` field. -/
structure ClaudeResponse where
  content : Option (List ClaudeWireBlock) := none
deriving DecidableEq, Repr

/-- `ClaudeProvider.parseResponse`: iterates `response.content` directly
(`for (const content of response.content)`), so a payload without a `content`
array raises a `TypeError`. -/
def ClaudeProvider.parseResponse (response : ClaudeResponse) : Except String ParsedResponse :=
  match response.content with
  | none => Except.error "TypeError: response.content is not iterable"
  | some blocks =>
    Except.ok <| blocks.foldl
      (fun result block =>
        if block.type == "text" then
          { result with content := result.content ++ block.text }
        else if block.type == "tool_use" then
          { result with toolCalls := result.toolCalls ++
              [{ id := block.id, name := block.name, arguments := block.input }] }
        else result)
      {}

/-- An OpenAI wire tool call (`arguments` is the JSON-encoded argument string;
`JSON.parse` of the opaque payload is not modelled further). -/
structure OpenAIWireToolCall where
  id : String
  functionName : String
  functionArguments : String
deriving DecidableEq, Repr

/-- The `message` object of an OpenAI choice. -/
structure OpenAIWireMessage where
  content : Option String := none
  tool_calls : Option (List OpenAIWireToolCall) := none
deriving DecidableEq, Repr

/-- One element of the `choices` array. -/
structure OpenAIChoice where
  message : OpenAIWireMessage
deriving DecidableEq, Repr

/-- An OpenAI HTTP-success payload; `choices := none` models a response object
missing its `choices` field. -/
structure OpenAIResponse where
  choices : Option (List OpenAIChoice) := none
deriving DecidableEq, Repr

/-- `OpenAIProvider.parseResponse`: reads `response.choices[0].message`
unguarded, so a payload whose `choices` field is missing (or an empty array)
raises a `TypeError`. -/
def OpenAIProvider.parseResponse (response : OpenAIResponse) : Except String ParsedResponse :=
  match response.choices with
  | none => Except.error "TypeError: cannot read properties of undefined"
  | some [] => Except.error "TypeError: cannot read properties of undefined"
  | some (choice :: _) =>
    let message := choice.message
    Except.ok
      { content := message.content.getD ""
        toolCalls :=
          match message.tool_calls with
          | some tcs => tcs.map fun tc =>
              { id := tc.id, name := tc.functionName, arguments := tc.functionArguments }
          | none => [] }

/-- One part of a Gemini candidate's content. -/
structure GeminiPart where
  text : Option String := none
  functionCall : Option (String × String) := none
deriving DecidableEq, Repr

/-- The `content` object of a Gemini candidate. -/
structure GeminiContent where
  parts : Option (List GeminiPart) := none
deriving DecidableEq, Repr

/-- One element of the `candidates` array. -/
structure GeminiCandidate where
  content : Option GeminiContent := none
deriving DecidableEq, Repr

/-- A Gemini HTTP-success payload. -/
structure GeminiResponse where
  candidates : Option (List GeminiCandidate) := none
deriving DecidableEq, Repr

/-- `GeminiProvider.parseResponse`: every access is guarded
(`if (response.candidates && response.candidates[0])`, `if (candidate.content
&& candidate.content.parts)`), so a malformed payload degrades to an empty
result.  `crypto.randomUUID()` is modelled by the injected fresh-id supply
`uuid` applied to the running count of function calls. -/
def GeminiProvider.parseResponse (uuid : Nat → String) (response : GeminiResponse) :
    ParsedResponse :=
  match response.candidates with
  | some (candidate :: _) =>
    match candidate.content with
    | some content =>
      match content.parts with
      | some parts =>
        (parts.foldl
          (fun (acc : ParsedResponse × Nat) part =>
            let (result, k) := acc
            if strTruthy part.text then
              ({ result with content := result.content ++ part.text.getD "" }, k)
            else
              match part.functionCall with
              | some (fname, fargs) =>
                ({ result with toolCalls := result.toolCalls ++
                    [{ id := uuid k, name := fname, arguments := fargs }] }, k + 1)
              | none => (result, k))
          ({}, 0)).1
      | none => {}
    | none => {}
  | some [] => {}
  | none => {}

/-- An Ollama wire tool call. -/
structure OllamaWireToolCall where
  id : Option String := none
  functionName : Option String := none
  functionArguments : Option String := none
  name : Option String := none
  arguments : Option String := none
deriving DecidableEq, Repr

/-- The `message` object of an Ollama response. -/
structure OllamaWireMessage where
  content : Option String := none
  tool_calls : Option (List OllamaWireToolCall) := none
deriving DecidableEq, Repr

/-- An Ollama HTTP-success payload; `message := none` models a response object
missing its `message` field. -/
structure OllamaResponse where
  message : Option OllamaWireMessage := none
deriving DecidableEq, Repr

/-- A tool call decoded out of a `<tools>` block embedded in message text. -/
structure OllamaEmbeddedTool where
  id : Option String := none
  name : String := "unknown"
  arguments : String := ""
deriving DecidableEq, Repr

/-- The lazy regex `/<tools>(.*?)<\/tool_call>/s` (falling back to
`/<tools>(.*?)<\/tools>/s`): the text between the first `<tools>` tag and the
nearest closing tag after it, together with the whole matched span. -/
def extractToolsBlock (s : String) (closeTag : String) : Option (String × String) :=
  let parts := s.splitOn "<tools>"
  match parts with
  | _ :: rest0 :: restTail =>
    let afterOpen := String.intercalate "<tools>" (rest0 :: restTail)
    let closeParts := afterOpen.splitOn closeTag
    match closeParts with
    | inner :: _ :: _ => some ("<tools>" ++ inner ++ closeTag, inner)
    | _ => none
  | _ => none

/-- `OllamaProvider.parseResponse`.  `JSON.parse` of the embedded `<tools>`
payload is a platform builtin and is modelled by the injected decoder
`decodeToolsJson` (`none` models a parse failure, which the source catches);
`crypto.randomUUID()` by the supply `uuid`.  Every access to the payload is
guarded (`if (response.message)`, `?.`/`||` fallbacks), so the function is
total: a malformed payload degrades to an empty result. -/
def OllamaProvider.parseResponse (decodeToolsJson : String → Option (List OllamaEmbeddedTool))
    (uuid : Nat → String) (response : OllamaResponse) : ParsedResponse :=
  match response.message with
  | none => {}
  | some message =>
    let result : ParsedResponse := { content := message.content.getD "" }
    match message.tool_calls with
    | some tcs =>
      { result with toolCalls := (tcs.foldl
          (fun (acc : List ToolCall × Nat) tc =>
            let (calls, k) := acc
            let id := if strTruthy tc.id then tc.id.getD "" else uuid k
            let name := if strTruthy tc.functionName then tc.functionName.getD ""
              else tc.name.getD ""
            let args := if strTruthy tc.functionArguments then tc.functionArguments.getD ""
              else tc.arguments.getD ""
            (calls ++ [{ id := id, name := name, arguments := args }], k + 1))
          ([], 0)).1 }
    | none =>
      if result.content ≠ "" then
        let matched :=
          match extractToolsBlock result.content "</tool_call>" with
          | some m => some m
          | none => extractToolsBlock result.content "</tools>"
        match matched with
        | some (whole, inner) =>
          match decodeToolsJson inner.trim with
          | some tools =>
            { content := ((result.content.splitOn whole).headD result.content ++
                String.intercalate whole ((result.content.splitOn whole).tail)).trim
              toolCalls := (tools.foldl
                (fun (acc : List ToolCall × Nat) tool =>
                  let (calls, k) := acc
                  let id := match tool.id with | some i => i | none => uuid k
                  (calls ++ [{ id := id, name := tool.name, arguments := tool.arguments }], k + 1))
                ([], 0)).1 }
          | none => result
        | none => result
      else result

/-! ## Observations and invariant checkers -/

/-- The `tool_use` ids of a message's blocks, in order. -/
def useIds (m : Message) : List String :=
  match m.content with
  | Content.blocks parts =>
    parts.filterMap fun p =>
      match p with | ContentBlock.toolUse id _ _ => some id | _ => none
  | _ => []

/-- The `tool_result` correlation ids of a message's blocks, in order. -/
def resultIds (m : Message) : List String :=
  match m.content with
  | Content.blocks parts =>
    parts.filterMap fun p =>
      match p with | ContentBlock.toolResult tuid _ _ => some tuid | _ => none
  | _ => []

/-- Executable check of the tool-correlation invariant: every assistant message
carrying `ToolUse` blocks is immediately followed by a user message whose
`ToolResult` correlation ids are exactly those `ToolUse` ids, in order
(hence each `ToolUse` has exactly one correlated `ToolResult` there). -/
def toolPairOkB : List Message → Bool
  | [] => true
  | [m] => !isToolAssistant m
  | m :: m' :: rest =>
    (if isToolAssistant m then m'.role == "user" && resultIds m' == useIds m else true) &&
      toolPairOkB (m' :: rest)

/-- The numeric ids of a history, in order. -/
def msgNumIds (h : List Message) : List Nat :=
  h.filterMap fun m =>
    match m._id with | some (MsgId.num n) => some n | _ => none

/-- Executable check that every numeric id in the history is bounded by the id
counter. -/
def idsBelowB (h : List Message) (counter : Nat) : Bool :=
  h.all fun m =>
    match m._id with | some (MsgId.num n) => n ≤ counter | _ => true

/-- A sequence of `addMessage` appends. -/
def applyAdds {σ : Type} (m : AIManager σ) (adds : List (String × Content)) : AIManager σ :=
  adds.foldl (fun m rc => (m.addMessage rc.1 rc.2).2) m

/-! ## Canonical histories

A canonical history is what `sendMessage` runs produce: user text messages,
assistant text messages, and tool turns — an assistant message holding
optional leading text plus one `ToolUse` block per call, immediately followed
by a user message holding the correlated `ToolResult` blocks, both tagged
with `metadata.toolCallIds`.  The `Turn` type enumerates these shapes and
`denote` lays them out with sequentially assigned ids. -/

/-- One executed tool exchange of a canonical tool turn. -/
structure Exchange where
  callId : String
  toolName : String
  input : String
  output : String
  isErr : Bool
deriving DecidableEq, Repr

/-- One canonical conversation turn. -/
inductive Turn where
  | userText (s : String)
  | assistantText (s : String)
  | toolTurn (text : Option String) (exs : List Exchange)
deriving DecidableEq, Repr

/-- The blocks of a canonical tool-bearing assistant message. -/
def assistantToolBlocks (text : Option String) (exs : List Exchange) : List ContentBlock :=
  (match text with | some t => [ContentBlock.text t] | none => []) ++
    exs.map fun e => ContentBlock.toolUse e.callId e.toolName e.input

/-- A canonical user text message. -/
def userTextMessage (n : Nat) (s : String) : Message :=
  { role := "user", content := Content.str s, _id := some (MsgId.num n) }

/-- A canonical assistant text message. -/
def assistantTextMessage (n : Nat) (s : String) : Message :=
  { role := "assistant", content := Content.str s, _id := some (MsgId.num n) }

/-- A canonical tool-bearing assistant message. -/
def assistantToolMessage (n : Nat) (text : Option String) (exs : List Exchange) : Message :=
  { role := "assistant"
    content := Content.blocks (assistantToolBlocks text exs)
    _id := some (MsgId.num n)
    metadata := some { toolCallIds := some (exs.map (·.callId)) } }

/-- A canonical tool-result user message. -/
def toolResultMessage (n : Nat) (exs : List Exchange) : Message :=
  { role := "user"
    content := Content.blocks (exs.map fun e => ContentBlock.toolResult e.callId e.output e.isErr)
    _id := some (MsgId.num n)
    metadata := some { toolCallIds := some (exs.map (·.callId)) } }

/-- The number of messages of a turn. -/
def turnLen : Turn → Nat
  | Turn.toolTurn .. => 2
  | _ => 1

/-- The number of messages of a turn list. -/
def msgLen (ts : List Turn) : Nat :=
  (ts.map turnLen).sum

/-- The messages of one turn, ids continuing from `n`. -/
def denoteTurn (n : Nat) : Turn → List Message
  | Turn.userText s => [userTextMessage (n + 1) s]
  | Turn.assistantText s => [assistantTextMessage (n + 1) s]
  | Turn.toolTurn text exs => [assistantToolMessage (n + 1) text exs, toolResultMessage (n + 2) exs]

/-- The canonical history of a turn list, ids continuing from `n`. -/
def denote (n : Nat) : List Turn → List Message
  | [] => []
  | t :: ts => denoteTurn n t ++ denote (n + turnLen t) ts

/-- The tool-call ids of a turn. -/
def turnCallIds : Turn → List String
  | Turn.toolTurn _ exs => exs.map (·.callId)
  | _ => []

/-- All tool-call ids of a turn list. -/
def allCallIds (ts : List Turn) : List String :=
  ts.flatMap turnCallIds

/-- Shape constraints of a single canonical turn: a tool turn carries at least
one exchange, and (being produced by registered tools and real providers) its
call ids and tool names are non-empty strings. -/
def turnOK : Turn → Bool
  | Turn.toolTurn _ exs =>
    !exs.isEmpty && exs.all fun e => e.callId ≠ "" && e.toolName ≠ ""
  | _ => true

/-- Well-formedness of a canonical history: every turn is well-shaped and tool
call ids never repeat. -/
def turnsWF (ts : List Turn) : Prop :=
  ts.all turnOK = true ∧ (allCallIds ts).Nodup

/-- Whether a turn list contains a tool turn. -/
def hasToolTurn (ts : List Turn) : Bool :=
  ts.any fun t => match t with | Turn.toolTurn .. => true | _ => false

/-- The role/content observation of a message (the spec-level view, ignoring the
projector's bookkeeping fields). -/
def obs (m : Message) : String × Content :=
  (m.role, m.content)

/-! ## The specified minimized view

`specRender` is written from the specification's words: the most recent
tool-bearing turn and its result message render verbatim; every earlier tool
turn is collapsed to synthetic summary lines computed from its exchanges'
success/failure counts and names; adjacent collapsed summary-only runs merge
into a single summary message; earlier tool-result messages are omitted; text
messages pass through. -/

/-- The success/failure summary of a tool turn, computed directly from its
canonical exchanges. -/
def summaryOfExchanges (exs : List Exchange) : SummaryInfo :=
  { successCount := (exs.filter fun e => !e.isErr).length
    failureCount := (exs.filter fun e => e.isErr).length
    successNames := (exs.filter fun e => !e.isErr).map (·.toolName)
    failureNames := (exs.filter fun e => e.isErr).map (·.toolName) }

/-- Emit a pending merged summary-only run as one summary message. -/
def flushObs : Option SummaryInfo → List (String × Content)
  | none => []
  | some info => [("assistant", Content.blocks (summaryTextBlocks info))]

/-- Merge a collapsed turn's summary into the pending run. -/
def specPendingAdd : Option SummaryInfo → SummaryInfo → SummaryInfo
  | none, info => info
  | some info0, info => addSummaryInfo info0 info

/-- The specified view, as role/content pairs, threading the pending
summary-only run. -/
def specRenderGo : Option SummaryInfo → List Turn → List (String × Content)
  | pending, [] => flushObs pending
  | pending, Turn.userText s :: ts =>
    flushObs pending ++ [("user", Content.str s)] ++ specRenderGo none ts
  | pending, Turn.assistantText s :: ts =>
    flushObs pending ++ [("assistant", Content.str s)] ++ specRenderGo none ts
  | pending, Turn.toolTurn text exs :: ts =>
    if hasToolTurn ts then
      match text with
      | none => specRenderGo (some (specPendingAdd pending (summaryOfExchanges exs))) ts
      | some t =>
        flushObs pending ++
          [("assistant", Content.blocks
            (ContentBlock.text t :: summaryTextBlocks (summaryOfExchanges exs)))] ++
          specRenderGo none ts
    else
      flushObs pending ++
        [("assistant", Content.blocks (assistantToolBlocks text exs)),
         ("user", Content.blocks
           (exs.map fun e => ContentBlock.toolResult e.callId e.output e.isErr))] ++
        specRenderGo none ts

/-- The specified view of a canonical history. -/
def specRender (ts : List Turn) : List (String × Content) :=
  specRenderGo none ts

/-! ## Proof-level characterization of the minimized view

`summaryOnlyMsg`, `textToolMsg` and `mergedSummaryMsg` are the exact messages
the projector produces for collapsed turns (including its bookkeeping fields);
`renderPre` runs the collapse over the turns strictly before the most recent
tool turn, threading the pending summary-only message. -/

/-- The collapsed form of an earlier summary-only tool turn. -/
def summaryOnlyMsg (n : Nat) (exs : List Exchange) : Message :=
  let info := summaryOfExchanges exs
  let ids := exs.map (·.callId)
  { role := "assistant"
    content := Content.blocks (summaryTextBlocks info)
    _id := some (MsgId.num n)
    metadata := some
      { toolCallIds := some ids
        toolSummary := true
        summaryInfo := some info
        summaryToolIds := some ids }
    hasNonSummaryText := some false
    summaryInfo := some info
    summaryToolIds := some ids }

/-- The collapsed form of an earlier text-bearing tool turn. -/
def textToolMsg (n : Nat) (t : String) (exs : List Exchange) : Message :=
  let info := summaryOfExchanges exs
  let ids := exs.map (·.callId)
  { role := "assistant"
    content := Content.blocks (ContentBlock.text t :: summaryTextBlocks info)
    _id := some (MsgId.num n)
    metadata := some { toolCallIds := some ids }
    hasNonSummaryText := some true
    summaryInfo := some info
    summaryToolIds := some ids }

/-- The in-place merge of a further summary-only turn into the pending
summary-only message. -/
def mergedSummaryMsg (prev : Message) (combined : SummaryInfo) : Message :=
  { prev with
    content := Content.blocks (summaryTextBlocks combined)
    metadata := some { prev.metadata.getD {} with summaryInfo := some combined }
    hasNonSummaryText := some false }

/-- The pending summary-only message, as a list. -/
def pendingToList : Option (Message × SummaryInfo) → List Message
  | none => []
  | some (prev, _) => [prev]

/-- Collapse of the turns strictly before the most recent tool turn: emitted
messages together with the trailing pending summary-only message. -/
def renderPre : Nat → Option (Message × SummaryInfo) → List Turn →
    List Message × Option (Message × SummaryInfo)
  | _, pending, [] => ([], pending)
  | n, pending, Turn.userText s :: ts =>
    let r := renderPre (n + 1) none ts
    (pendingToList pending ++ [userTextMessage (n + 1) s] ++ r.1, r.2)
  | n, pending, Turn.assistantText s :: ts =>
    let r := renderPre (n + 1) none ts
    (pendingToList pending ++ [assistantTextMessage (n + 1) s] ++ r.1, r.2)
  | n, pending, Turn.toolTurn none exs :: ts =>
    let info := summaryOfExchanges exs
    (match pending with
    | some (prev, info0) =>
      let combined := addSummaryInfo info0 info
      renderPre (n + 2) (some (mergedSummaryMsg prev combined, combined)) ts
    | none => renderPre (n + 2) (some (summaryOnlyMsg (n + 1) exs, info)) ts)
  | n, pending, Turn.toolTurn (some t) exs :: ts =>
    let r := renderPre (n + 2) none ts
    (pendingToList pending ++ [textToolMsg (n + 1) t exs] ++ r.1, r.2)

/-- The `toolInfo` entry of a canonical exchange. -/
def metaOf (e : Exchange) : ToolMeta :=
  { name := some e.toolName, id := some e.callId, isError := e.isErr }

/-- The map ids a message can touch in the `toolInfo` pass. -/
def msgTouchedIds (msg : Message) : List String :=
  match msg.content with
  | Content.blocks parts =>
    parts.filterMap fun p =>
      match p with
      | ContentBlock.toolUse id _ _ => some id
      | ContentBlock.toolResult tuid _ _ => some tuid
      | _ => none
  | _ => []

/-- Characterization of a pending summary-only message produced by the
collapse: an assistant message holding exactly the summary text lines of
`info`, marked `metadata.toolSummary` with `metadata.summaryInfo = info` and
`hasNonSummaryText = false`. -/
def IsPendingMsg (prev : Message) (info : SummaryInfo) : Prop :=
  prev.role = "assistant" ∧
  prev.content = Content.blocks (summaryTextBlocks info) ∧
  (∃ md : Metadata, prev.metadata = some md ∧ md.toolSummary = true ∧
    md.summaryInfo = some info) ∧
  prev.hasNonSummaryText = some false

/-- The pending state invariant of the collapse fold: either no pending
summary message (and the last emitted message, if any, does not absorb
summaries), or the accumulator ends in a pending summary message. -/
def PendingInv (finished : List Message) : Option (Message × SummaryInfo) → Prop
  | none =>
    match finished.getLast? with
    | some prev => mergeCond prev = false
    | none => True
  | some (prev, info) => IsPendingMsg prev info

/-- The fresh message appended by `addMessage` with the next id. -/
def freshMessage (role : String) (content : Content) (n : Nat) : Message :=
  { role := role, content := content, _id := some (MsgId.num n) }

/-- The summary text chosen by `buildAugmentedPrompt`. -/
def augSummary {σ : Type} (tools : List (UniversalTool σ)) (s : σ) : String :=
  let base :=
    match tools.find? (fun t => t.name == "code_summary") with
    | some tool =>
      match (tool.handler "" s).1 with
      | Except.ok summary => summary
      | Except.error msg => "[Error generating summary: " ++ msg ++ "]"
    | none => "[code_summary tool unavailable]"
  if jsTrimEnd base = "" then "[No summary generated]" else jsTrimEnd base

/-! # Theorems -/

/-- Claim C7 (counterexample): parsing an HTTP-success response object that is
missing its `content` (Claude) / `choices` (OpenAI) field does not degrade to
an empty result — both adapters throw a `TypeError`, contradicting the claim
that every adapter parses malformed responses without throwing. -/
theorem claude_openai_parse_throws_on_missing_field :
    ClaudeProvider.parseResponse {} =
      Except.error "TypeError: response.content is not iterable" ∧
    OpenAIProvider.parseResponse {} =
      Except.error "TypeError: cannot read properties of undefined" :=
  ⟨rfl, rfl⟩

/-- Claim C7 (amended): the Gemini and Ollama adapters guard every access into
the payload, so a response missing its `candidates` / `message` field (or with
empty or partial nesting) parses to empty text and no tool calls; the Claude
and OpenAI adapters instead throw a `TypeError` when `content` / `choices` is
missing. -/
theorem parseResponse_malformed_degrades_or_throws :
    (∀ uuid : Nat → String,
      GeminiProvider.parseResponse uuid {} = {} ∧
      GeminiProvider.parseResponse uuid { candidates := some [] } = {} ∧
      GeminiProvider.parseResponse uuid { candidates := some [{}] } = {} ∧
      GeminiProvider.parseResponse uuid { candidates := some [{ content := some {} }] } = {}) ∧
    (∀ (decodeToolsJson : String → Option (List OllamaEmbeddedTool)) (uuid : Nat → String),
      OllamaProvider.parseResponse decodeToolsJson uuid {} = {}) ∧
    ClaudeProvider.parseResponse {} =
      Except.error "TypeError: response.content is not iterable" ∧
    OpenAIProvider.parseResponse {} =
      Except.error "TypeError: cannot read properties of undefined" :=
  ⟨fun _ => ⟨rfl, rfl, rfl, rfl⟩, fun _ _ => rfl, rfl, rfl⟩

/-- Unfolding: executing a non-empty batch produces one result for the head
call (with the head call's id) followed by the results of the tail, from some
intermediate world state. -/
theorem executeToolCalls_cons {σ : Type} (tools : List (UniversalTool σ)) (p : ToolCall)
    (rest : List ToolCall) (s : σ) :
    ∃ r s', r.id = p.id ∧
      executeToolCalls (p :: rest) tools s =
        (r :: (executeToolCalls rest tools s').1, (executeToolCalls rest tools s').2) := by
  cases h : tools.find? (fun t => t.name == p.name) with
  | none =>
    refine ⟨⟨p.id, "Unknown tool: " ++ p.name, true, none⟩, s, rfl, ?_⟩
    simp only [executeToolCalls, h]
  | some tool =>
    cases h2 : (tool.handler p.arguments s).1 with
    | ok result =>
      refine ⟨⟨p.id, result, false, none⟩, (tool.handler p.arguments s).2, rfl, ?_⟩
      simp only [executeToolCalls, h, h2]
    | error msg =>
      refine ⟨⟨p.id, "Error: " ++ msg, true, none⟩, (tool.handler p.arguments s).2, rfl, ?_⟩
      simp only [executeToolCalls, h, h2]

/-- `executeToolCalls` always produces exactly one result per call. -/
theorem executeToolCalls_length {σ : Type} (calls : List ToolCall)
    (tools : List (UniversalTool σ)) (s : σ) :
    ((executeToolCalls calls tools s).1).length = calls.length := by
  induction calls generalizing s with
  | nil => rfl
  | cons p rest ih =>
    obtain ⟨r, s', -, heq⟩ := executeToolCalls_cons tools p rest s
    rw [heq]
    simp [ih s']

/-- `executeToolCalls` preserves the call ids, in order. -/
theorem executeToolCalls_ids {σ : Type} (calls : List ToolCall)
    (tools : List (UniversalTool σ)) (s : σ) :
    ((executeToolCalls calls tools s).1).map (·.id) = calls.map (·.id) := by
  induction calls generalizing s with
  | nil => rfl
  | cons p rest ih =>
    obtain ⟨r, s', hid, heq⟩ := executeToolCalls_cons tools p rest s
    rw [heq]
    simp [hid, ih s']

/-- Claim C9: a tool call whose name matches no registered tool yields (without
throwing — `executeToolCalls` is total) a `ToolResult` with `isError = true`
and content exactly `"Unknown tool: <name>"`, at the call's position in the
batch, and the remaining calls are still executed (one result per call). -/
theorem executeToolCalls_unknown_tool {σ : Type} (tools : List (UniversalTool σ))
    (pre post : List ToolCall) (c : ToolCall) (s : σ)
    (h : tools.find? (fun t => t.name == c.name) = none) :
    ((executeToolCalls (pre ++ c :: post) tools s).1).length =
      pre.length + 1 + post.length ∧
    ∃ s', ((executeToolCalls (pre ++ c :: post) tools s).1).get? pre.length =
      some { id := c.id, result := "Unknown tool: " ++ c.name, isError := true } ∧
      ((executeToolCalls (pre ++ c :: post) tools s).1).drop (pre.length + 1) =
        (executeToolCalls post tools s').1 := by
  constructor
  · rw [executeToolCalls_length]
    simp [Nat.add_assoc, Nat.add_comm 1 post.length]
  · induction pre generalizing s with
    | nil =>
      have he : executeToolCalls (c :: post) tools s =
          ({ id := c.id, result := "Unknown tool: " ++ c.name, isError := true,
             messageId := none } :: (executeToolCalls post tools s).1,
           (executeToolCalls post tools s).2) := by
        simp only [executeToolCalls, h]
      refine ⟨s, ?_, ?_⟩
      · show ((executeToolCalls (c :: post) tools s).1).get? 0 = _
        rw [he]
        rfl
      · show ((executeToolCalls (c :: post) tools s).1).drop (0 + 1) = _
        rw [he]
        rfl
    | cons p rest ih =>
      obtain ⟨r, s', -, heq⟩ := executeToolCalls_cons tools p (rest ++ c :: post) s
      obtain ⟨s'', hget, hdrop⟩ := ih s'
      refine ⟨s'', ?_, ?_⟩
      · show ((executeToolCalls ((p :: rest) ++ c :: post) tools s).1).get? (rest.length + 1) = _
        rw [List.cons_append, heq]
        simpa using hget
      · show ((executeToolCalls ((p :: rest) ++ c :: post) tools s).1).drop (rest.length + 1 + 1) = _
        rw [List.cons_append, heq]
        simpa [Nat.add_assoc] using hdrop

/-- Each loop pass performs exactly one provider call. -/
theorem sendStep_iterations {σ : Type} (script : Provider) (tools : List (UniversalTool σ))
    (st : LoopSt σ) : (sendStep script tools st).iterations = st.iterations + 1 := by
  simp only [sendStep]
  split
  · rfl
  · split <;> rfl

/-- A pass whose response carries tool calls does not stop the loop. -/
theorem sendStep_continue_of_toolCalls {σ : Type} (script : Provider)
    (tools : List (UniversalTool σ)) (st : LoopSt σ)
    (h : (script st.iterations).toolCalls ≠ []) :
    (sendStep script tools st).continueProcessing = st.continueProcessing := by
  simp only [sendStep]
  split
  · rfl
  · exact absurd h (by simp_all)

/-- The loop performs at most `fuel` further provider calls. -/
theorem sendLoop_iterations_le {σ : Type} (script : Provider) (tools : List (UniversalTool σ))
    (fuel : Nat) (st : LoopSt σ) :
    (sendLoop script tools fuel st).iterations ≤ st.iterations + fuel := by
  induction fuel generalizing st with
  | zero => simp [sendLoop]
  | succ f ih =>
    simp only [sendLoop]
    split
    · have h1 := ih (sendStep script tools st)
      have h2 := sendStep_iterations script tools st
      omega
    · omega

/-- The iteration counter never decreases. -/
theorem sendLoop_iterations_ge {σ : Type} (script : Provider) (tools : List (UniversalTool σ))
    (fuel : Nat) (st : LoopSt σ) :
    st.iterations ≤ (sendLoop script tools fuel st).iterations := by
  induction fuel generalizing st with
  | zero => simp [sendLoop]
  | succ f ih =>
    simp only [sendLoop]
    split
    · have h1 := ih (sendStep script tools st)
      have h2 := sendStep_iterations script tools st
      omega
    · omega

/-- With budget left and the loop still running, at least one more provider
call happens. -/
theorem sendLoop_ge_succ {σ : Type} (script : Provider) (tools : List (UniversalTool σ))
    (fuel : Nat) (st : LoopSt σ) (hf : 1 ≤ fuel) (hc : st.continueProcessing = true) :
    st.iterations + 1 ≤ (sendLoop script tools fuel st).iterations := by
  obtain ⟨f, rfl⟩ : ∃ f, fuel = f + 1 := ⟨fuel - 1, by omega⟩
  simp only [sendLoop, hc, if_true]
  have h1 := sendLoop_iterations_ge script tools f (sendStep script tools st)
  have h2 := sendStep_iterations script tools st
  omega

/-- When the first response carries tool calls and the budget allows it, the
provider is called a second time. -/
theorem sendLoop_ge_two {σ : Type} (script : Provider) (tools : List (UniversalTool σ))
    (fuel : Nat) (st : LoopSt σ) (hf : 2 ≤ fuel) (hc : st.continueProcessing = true)
    (hi : st.iterations = 0) (h0 : (script 0).toolCalls ≠ []) :
    2 ≤ (sendLoop script tools fuel st).iterations := by
  obtain ⟨f, rfl⟩ : ∃ f, fuel = f + 1 + 1 := ⟨fuel - 2, by omega⟩
  simp only [sendLoop, hc, if_true]
  have hcont : (sendStep script tools st).continueProcessing = true := by
    rw [sendStep_continue_of_toolCalls script tools st (hi ▸ h0)]
    exact hc
  simp only [hcont, if_true]
  have h1 := sendLoop_iterations_ge script tools f
    (sendStep script tools (sendStep script tools st))
  have h2 := sendStep_iterations script tools (sendStep script tools st)
  have h3 := sendStep_iterations script tools st
  omega

/-- A provider script that always returns tool calls keeps the loop running
until the budget is spent, one provider call per pass. -/
theorem sendLoop_always_tools {σ : Type} (script : Provider) (tools : List (UniversalTool σ))
    (hs : ∀ k, (script k).toolCalls ≠ []) (fuel : Nat) (st : LoopSt σ)
    (hc : st.continueProcessing = true) :
    (sendLoop script tools fuel st).iterations = st.iterations + fuel ∧
    (sendLoop script tools fuel st).continueProcessing = true := by
  induction fuel generalizing st with
  | zero => simpa [sendLoop]
  | succ f ih =>
    simp only [sendLoop, hc, if_true]
    have hstep := sendStep_continue_of_toolCalls script tools st (hs st.iterations)
    obtain ⟨h1, h2⟩ := ih (sendStep script tools st) (hstep.trans hc)
    have h3 := sendStep_iterations script tools st
    exact ⟨by omega, h2⟩

/-- Claim C2: with `maxIterations = 2` against a stub that always returns a
tool call, `sendMessage` invokes the provider exactly twice (never a third
time) and returns `needsContinuation = true`, `iterationsUsed = 2`,
`maxIterations = 2`; in general the loop performs at most
`effectiveMaxIterations` provider round-trips, which defaults to 10 for a
fresh message and 20 for the explicit continuation marker. -/
theorem sendMessage_iteration_budget {σ : Type} :
    (∀ (m : AIManager σ) (script : Provider) (userMessage : String)
        (options : SendOptions) (s : σ),
      m.getProvider = some script →
      (∀ k, (script k).toolCalls ≠ []) →
      options.maxIterations = some 2 →
      ∃ out, m.sendMessage userMessage options s = Except.ok out ∧
        out.providerCalls = 2 ∧
        out.result.needsContinuation = true ∧
        out.result.iterationsUsed = some 2 ∧
        out.result.maxIterations = some 2) ∧
    (∀ (m : AIManager σ) (userMessage : String) (options : SendOptions) (s : σ)
        (out : SendOutcome σ),
      m.sendMessage userMessage options s = Except.ok out →
      out.providerCalls ≤ effectiveMaxIterations options (userMessage == "__continue_tools__")) ∧
    (∀ (options : SendOptions) (isContinuation : Bool),
      options.maxIterations = none →
      effectiveMaxIterations options isContinuation = if isContinuation then 20 else 10) := by
  refine ⟨?_, ?_, ?_⟩
  · intro m script userMessage options s hp hs hmi
    have hmax : effectiveMaxIterations options (userMessage == "__continue_tools__") = 2 := by
      simp [effectiveMaxIterations, hmi]
    simp only [AIManager.sendMessage, hp, hmax]
    set st0 : LoopSt σ :=
      { messages := (m.sendPrelude userMessage options s).2.1
        history := (m.sendPrelude userMessage options s).1.conversationHistory
        counter := (m.sendPrelude userMessage options s).1.messageIdCounter
        world := (m.sendPrelude userMessage options s).2.2 } with hst0
    obtain ⟨hiter, hcont⟩ := sendLoop_always_tools script m.tools hs 2 st0 rfl
    refine ⟨_, rfl, ?_, ?_, ?_, ?_⟩
    · exact hiter
    · simp [hiter, hcont]
    · simp [hiter, hcont]
    · simp [hiter, hcont]
  · intro m userMessage options s out hok
    cases hp : m.getProvider with
    | none => simp [AIManager.sendMessage, hp] at hok
    | some script =>
      simp only [AIManager.sendMessage, hp, Except.ok.injEq] at hok
      have hle := sendLoop_iterations_le script m.tools
        (effectiveMaxIterations options (userMessage == "__continue_tools__"))
        { messages := (m.sendPrelude userMessage options s).2.1
          history := (m.sendPrelude userMessage options s).1.conversationHistory
          counter := (m.sendPrelude userMessage options s).1.messageIdCounter
          world := (m.sendPrelude userMessage options s).2.2 }
      rw [← hok]
      simpa using hle
  · intro options isContinuation hmi
    simp [effectiveMaxIterations, hmi]

/-- Witness for C2 at a concrete stub: two provider calls, continuation
signalled. -/
theorem sendMessage_iteration_budget_witness :
    ∃ out, (AIManager.sendMessage (σ := Unit)
      { providers := [("p", fun _ =>
          { content := "", toolCalls := [{ id := "t", name := "x", arguments := "" }] })]
        currentProvider := some "p" }
      "go" { maxIterations := some 2 } ()) = Except.ok out ∧
      out.providerCalls = 2 ∧
      out.result.needsContinuation = true ∧
      out.result.iterationsUsed = some 2 ∧
      out.result.maxIterations = some 2 :=
  sendMessage_iteration_budget.1
    { providers := [("p", fun _ =>
        { content := "", toolCalls := [{ id := "t", name := "x", arguments := "" }] })]
      currentProvider := some "p" }
    (fun _ => { content := "", toolCalls := [{ id := "t", name := "x", arguments := "" }] })
    "go" { maxIterations := some 2 } () rfl (fun _ => List.cons_ne_nil _ _) rfl

/-- Claim C6: a handler exception with message `m` is caught per call and
recorded as a `ToolResult` with `isError = true` and content
`"Error: " ++ m`; the remaining handlers of the batch still execute (one
result per call, continuing from the post-exception world state), and the
provider is invoked again afterwards — the loop does not abort. -/
theorem toolError_converted_and_loop_continues {σ : Type} :
    (∀ (tools : List (UniversalTool σ)) (c : ToolCall) (rest : List ToolCall) (s : σ)
        (tool : UniversalTool σ) (em : String),
      tools.find? (fun t => t.name == c.name) = some tool →
      (tool.handler c.arguments s).1 = Except.error em →
      executeToolCalls (c :: rest) tools s =
        ({ id := c.id, result := "Error: " ++ em, isError := true } ::
          (executeToolCalls rest tools (tool.handler c.arguments s).2).1,
         (executeToolCalls rest tools (tool.handler c.arguments s).2).2)) ∧
    (∀ (calls : List ToolCall) (tools : List (UniversalTool σ)) (s : σ),
      ((executeToolCalls calls tools s).1).length = calls.length) ∧
    (∀ (m : AIManager σ) (script : Provider) (userMessage : String)
        (options : SendOptions) (s : σ),
      m.getProvider = some script →
      (script 0).toolCalls ≠ [] →
      2 ≤ effectiveMaxIterations options (userMessage == "__continue_tools__") →
      ∃ out, m.sendMessage userMessage options s = Except.ok out ∧
        2 ≤ out.providerCalls) := by
  refine ⟨?_, fun calls tools s => executeToolCalls_length calls tools s, ?_⟩
  · intro tools c rest s tool em hfind herr
    simp only [executeToolCalls, hfind, herr]
  · intro m script userMessage options s hp h0 hge
    simp only [AIManager.sendMessage, hp]
    refine ⟨_, rfl, ?_⟩
    exact sendLoop_ge_two script m.tools _ _ hge rfl rfl h0

/-- Witness for C6 at a concrete throwing handler (`"boom"`). -/
theorem toolError_converted_witness :
    executeToolCalls
        [{ id := "i", name := "boom", arguments := "" },
         { id := "j", name := "boom", arguments := "" }]
        [{ name := "boom", handler := fun _ s => (Except.error "boom", s) }] () =
      ([{ id := "i", result := "Error: boom", isError := true },
        { id := "j", result := "Error: boom", isError := true }], ()) := by
  have h := (toolError_converted_and_loop_continues (σ := Unit)).1
    [{ name := "boom", handler := fun _ s => (Except.error "boom", s) }]
    { id := "i", name := "boom", arguments := "" }
    [{ id := "j", name := "boom", arguments := "" }] ()
    { name := "boom", handler := fun _ s => (Except.error "boom", s) } "boom" rfl rfl
  rw [h]
  decide

/-- Witness for C9 at a concrete unregistered tool name. -/
theorem executeToolCalls_unknown_tool_witness :
    ((executeToolCalls ([] ++ { id := "x", name := "nope", arguments := "a" } ::
        [{ id := "y", name := "nope", arguments := "b" }])
        ([] : List (UniversalTool Unit)) ()).1).length = 0 + 1 + 1 ∧
    ∃ s', ((executeToolCalls ([] ++ { id := "x", name := "nope", arguments := "a" } ::
        [{ id := "y", name := "nope", arguments := "b" }])
        ([] : List (UniversalTool Unit)) ()).1).get? 0 =
      some { id := "x", result := "Unknown tool: " ++ "nope", isError := true } ∧
      ((executeToolCalls ([] ++ { id := "x", name := "nope", arguments := "a" } ::
        [{ id := "y", name := "nope", arguments := "b" }])
        ([] : List (UniversalTool Unit)) ()).1).drop (0 + 1) =
        (executeToolCalls [{ id := "y", name := "nope", arguments := "b" }]
          ([] : List (UniversalTool Unit)) s').1 :=
  executeToolCalls_unknown_tool ([] : List (UniversalTool Unit)) []
    [{ id := "y", name := "nope", arguments := "b" }]
    { id := "x", name := "nope", arguments := "a" } () rfl

theorem toolPairOkB_append_single {h : List Message} {x : Message}
    (hh : toolPairOkB h = true) (hx : isToolAssistant x = false) :
    toolPairOkB (h ++ [x]) = true := by
  induction h with
  | nil => simp [toolPairOkB, hx]
  | cons m t ih =>
    cases t with
    | nil =>
      simp only [toolPairOkB, Bool.not_eq_true'] at hh
      simp [toolPairOkB, hh, hx]
    | cons m' rest =>
      simp only [toolPairOkB, Bool.and_eq_true] at hh
      have := ih hh.2
      simp only [List.cons_append, toolPairOkB, Bool.and_eq_true] at this ⊢
      exact ⟨hh.1, this⟩

theorem toolPairOkB_append_pair {h : List Message} {a r : Message}
    (hh : toolPairOkB h = true)
    (hr : r.role = "user") (hids : resultIds r = useIds a)
    (hra : isToolAssistant r = false) :
    toolPairOkB (h ++ [a, r]) = true := by
  induction h with
  | nil => simp [toolPairOkB, hr, hids, hra]
  | cons m t ih =>
    cases t with
    | nil =>
      simp only [toolPairOkB, Bool.not_eq_true'] at hh
      simp [toolPairOkB, hh, hr, hids, hra]
    | cons m' rest =>
      simp only [toolPairOkB, Bool.and_eq_true] at hh
      have := ih hh.2
      simp only [List.cons_append, toolPairOkB, Bool.and_eq_true] at this ⊢
      exact ⟨hh.1, this⟩

theorem ensureMessageId_role_content (c : Nat) (msg : Message) :
    (ensureMessageId c msg).2.role = msg.role ∧ (ensureMessageId c msg).2.content = msg.content := by
  unfold ensureMessageId
  split
  · exact ⟨rfl, rfl⟩
  · split
    · exact ⟨rfl, rfl⟩
    · exact ⟨rfl, rfl⟩
  · exact ⟨rfl, rfl⟩

theorem isToolAssistant_congr {a b : Message} (h1 : a.role = b.role)
    (h2 : a.content = b.content) : isToolAssistant a = isToolAssistant b := by
  simp [isToolAssistant, h1, h2]

theorem useIds_congr {a b : Message} (h2 : a.content = b.content) : useIds a = useIds b := by
  simp [useIds, h2]

theorem resultIds_congr {a b : Message} (h2 : a.content = b.content) :
    resultIds a = resultIds b := by
  simp [resultIds, h2]

/-- Shape relation: equal roles and contents. -/
def shapeEq (a b : Message) : Prop := a.role = b.role ∧ a.content = b.content

theorem toolPairOkB_congr : ∀ {h h' : List Message}, List.Forall₂ shapeEq h h' →
    toolPairOkB h = toolPairOkB h' := by
  intro h h' hf
  induction hf with
  | nil => rfl
  | cons hab hrest ih =>
    rename_i a b as bs
    cases hrest with
    | nil => simp [toolPairOkB, isToolAssistant_congr hab.1 hab.2]
    | cons hab2 hrest2 =>
      rename_i a2 b2 as2 bs2
      have ihtail := ih
      simp only [toolPairOkB] at ihtail ⊢
      rw [isToolAssistant_congr hab.1 hab.2, useIds_congr hab.2,
        resultIds_congr hab2.2, hab2.1, ihtail]

theorem ensureHistoryMessageIds_shape (c : Nat) (h : List Message) :
    List.Forall₂ shapeEq (ensureHistoryMessageIds c h).2 h := by
  induction h generalizing c with
  | nil => exact List.Forall₂.nil
  | cons m rest ih =>
    exact List.Forall₂.cons
      ⟨(ensureMessageId_role_content c m).1, (ensureMessageId_role_content c m).2⟩ (ih _)

theorem isToolAssistant_of_str {x : Message} {s : String} (h : x.content = Content.str s) :
    isToolAssistant x = false := by
  simp [isToolAssistant, h]

theorem loopAssistantMessage_role (c : Nat) (r : ParsedResponse) :
    (loopAssistantMessage c r).2.role = "assistant" :=
  (ensureMessageId_role_content ..).1

theorem loopAssistantMessage_content (c : Nat) (r : ParsedResponse) :
    (loopAssistantMessage c r).2.content = Content.blocks
      ((if r.content ≠ "" then [ContentBlock.text r.content] else []) ++
        r.toolCalls.map fun toolCall =>
          ContentBlock.toolUse toolCall.id toolCall.name toolCall.arguments) :=
  (ensureMessageId_role_content ..).2

theorem loopAssistantMessage_useIds (c : Nat) (r : ParsedResponse) :
    useIds (loopAssistantMessage c r).2 = r.toolCalls.map (·.id) := by
  unfold useIds
  rw [loopAssistantMessage_content]
  simp only [List.filterMap_append, List.filterMap_map]
  split <;>
    · simp only [Function.comp_def, List.filterMap_nil, List.nil_append]
      exact congrFun (List.filterMap_eq_map _) r.toolCalls

theorem loopToolResultMessage_role (c : Nat) (rs : List ToolResultRec) :
    (loopToolResultMessage c rs).2.role = "user" :=
  (ensureMessageId_role_content ..).1

theorem loopToolResultMessage_content (c : Nat) (rs : List ToolResultRec) :
    (loopToolResultMessage c rs).2.content = Content.blocks
      (rs.map fun r => ContentBlock.toolResult r.id r.result r.isError) :=
  (ensureMessageId_role_content ..).2

theorem loopToolResultMessage_resultIds (c : Nat) (rs : List ToolResultRec) :
    resultIds (loopToolResultMessage c rs).2 = rs.map (·.id) := by
  unfold resultIds
  rw [loopToolResultMessage_content]
  simp only [List.filterMap_map, Function.comp_def]
  exact congrFun (List.filterMap_eq_map _) rs

theorem isToolAssistant_loopToolResultMessage (c : Nat) (rs : List ToolResultRec) :
    isToolAssistant (loopToolResultMessage c rs).2 = false := by
  simp [isToolAssistant, loopToolResultMessage_role c rs]

theorem sendStep_preserves_toolPairOk {σ : Type} (script : Provider)
    (tools : List (UniversalTool σ)) (st : LoopSt σ)
    (hh : toolPairOkB st.history = true) :
    toolPairOkB (sendStep script tools st).history = true := by
  simp only [sendStep]
  split
  case isTrue htc =>
    apply toolPairOkB_append_pair hh
    · exact loopToolResultMessage_role ..
    · rw [loopToolResultMessage_resultIds, loopAssistantMessage_useIds,
        executeToolCalls_ids]
    · exact isToolAssistant_loopToolResultMessage ..
  case isFalse htc =>
    split
    case isTrue hc =>
      apply toolPairOkB_append_single hh
      exact isToolAssistant_of_str ((ensureMessageId_role_content _ _).2)
    case isFalse hc => exact hh

theorem sendLoop_preserves_toolPairOk {σ : Type} (script : Provider)
    (tools : List (UniversalTool σ)) (fuel : Nat) (st : LoopSt σ)
    (hh : toolPairOkB st.history = true) :
    toolPairOkB (sendLoop script tools fuel st).history = true := by
  induction fuel generalizing st with
  | zero => simpa [sendLoop]
  | succ f ih =>
    simp only [sendLoop]
    split
    · exact ih _ (sendStep_preserves_toolPairOk script tools st hh)
    · exact hh

theorem sendPrelude_toolPairOk {σ : Type} (m : AIManager σ) (u : String) (o : SendOptions)
    (s : σ) (hh : toolPairOkB m.conversationHistory = true) :
    toolPairOkB (m.sendPrelude u o s).1.conversationHistory = true := by
  have hens : toolPairOkB
      (ensureHistoryMessageIds m.messageIdCounter m.conversationHistory).2 = true := by
    rw [toolPairOkB_congr (ensureHistoryMessageIds_shape _ _)]
    exact hh
  simp only [AIManager.sendPrelude]
  split
  · exact toolPairOkB_append_single hens
      (isToolAssistant_of_str (ensureMessageId_role_content _ _).2)
  · exact hens

/-- Claim C3: `executeToolCalls` produces exactly one result per call with the
call ids in the returned order; handlers run sequentially in that order (with
state-logging handlers, the log extends by the call names in order); and
`sendMessage` preserves the correlation invariant — every `ToolUse`-bearing
assistant message is immediately followed by one user message whose
`ToolResult` ids equal those `ToolUse` ids — for its whole canonical history.
The assistant and tool-result messages of one iteration are appended before
the provider is invoked again (`sendStep` appends both in one pass). -/
theorem sendMessage_tool_correlation :
    (∀ {σ : Type} (calls : List ToolCall) (tools : List (UniversalTool σ)) (s : σ),
      ((executeToolCalls calls tools s).1).map (·.id) = calls.map (·.id)) ∧
    (∀ (tools : List (UniversalTool (List String))) (calls : List ToolCall) (log : List String),
      (∀ t ∈ tools, ∀ a l, (t.handler a l).2 = l ++ [t.name]) →
      (∀ c ∈ calls, ∃ t ∈ tools, t.name = c.name) →
      (executeToolCalls calls tools log).2 = log ++ calls.map (·.name)) ∧
    (∀ {σ : Type} (m : AIManager σ) (userMessage : String) (options : SendOptions) (s : σ)
        (out : SendOutcome σ),
      m.sendMessage userMessage options s = Except.ok out →
      toolPairOkB m.conversationHistory = true →
      toolPairOkB out.manager.conversationHistory = true) := by
  refine ⟨fun calls tools s => executeToolCalls_ids calls tools s, ?_, ?_⟩
  · intro tools calls log hlog hreg
    induction calls generalizing log with
    | nil => simp [executeToolCalls]
    | cons c rest ih =>
      obtain ⟨t, htmem, htname⟩ := hreg c (List.mem_cons_self c rest)
      have hfind : (tools.find? (fun t => t.name == c.name)).isSome := by
        rw [List.find?_isSome]
        exact ⟨t, htmem, by simp [htname]⟩
      obtain ⟨t', hfind'⟩ := Option.isSome_iff_exists.mp hfind
      have ht'mem : t' ∈ tools := List.mem_of_find?_eq_some hfind'
      have ht'name : t'.name = c.name := by
        have := List.find?_some hfind'
        simpa using this
      have hstate : (t'.handler c.arguments log).2 = log ++ [c.name] := by
        rw [hlog t' ht'mem c.arguments log, ht'name]
      have htail := ih (log ++ [c.name])
        (fun c' hc' => hreg c' (List.mem_cons_of_mem _ hc'))
      simp only [executeToolCalls, hfind']
      cases hr : (t'.handler c.arguments log).1 with
      | ok result =>
        simp only [hr]
        rw [hstate, htail]
        simp
      | error msg =>
        simp only [hr]
        rw [hstate, htail]
        simp
  · intro σ m userMessage options s out hok hinv
    cases hp : m.getProvider with
    | none => simp [AIManager.sendMessage, hp] at hok
    | some script =>
      simp only [AIManager.sendMessage, hp, Except.ok.injEq] at hok
      rw [← hok]
      exact sendLoop_preserves_toolPairOk script m.tools _ _
        (sendPrelude_toolPairOk m userMessage options s hinv)


/-- Witness for C3: two logging handlers execute in the supplied order. -/
theorem sendMessage_tool_correlation_witness :
    (executeToolCalls
      [{ id := "1", name := "a", arguments := "" }, { id := "2", name := "b", arguments := "" }]
      [{ name := "a", handler := fun _ l => (Except.ok "r", l ++ ["a"]) },
       { name := "b", handler := fun _ l => (Except.ok "r", l ++ ["b"]) }]
      ([] : List String)).2 = ["a", "b"] := by
  have h := sendMessage_tool_correlation.2.1
    [{ name := "a", handler := fun _ l => (Except.ok "r", l ++ ["a"]) },
     { name := "b", handler := fun _ l => (Except.ok "r", l ++ ["b"]) }]
    [{ id := "1", name := "a", arguments := "" }, { id := "2", name := "b", arguments := "" }]
    []
    (by
      intro t ht
      simp only [List.mem_cons, List.not_mem_nil, or_false] at ht
      rcases ht with rfl | rfl <;> exact fun a l => rfl)
    (by
      intro c hc
      simp only [List.mem_cons, List.not_mem_nil, or_false] at hc
      rcases hc with rfl | rfl
      · exact ⟨_, List.mem_cons_self _ _, rfl⟩
      · exact ⟨{ name := "b", handler := fun _ l => (Except.ok "r", l ++ ["b"]) },
          List.mem_cons_of_mem _ (List.mem_cons_self _ _), rfl⟩)
  simpa using h

theorem idsBelowB_mono {h : List Message} {c c' : Nat} (hb : idsBelowB h c = true)
    (hle : c ≤ c') : idsBelowB h c' = true := by
  rw [idsBelowB, List.all_eq_true] at hb ⊢
  intro m hm
  have hmb := hb m hm
  cases hid : m._id with
  | none => simp
  | some i =>
    cases i with
    | num n =>
      rw [hid] at hmb
      simp only [decide_eq_true_eq] at hmb
      simp only [decide_eq_true_eq]
      omega
    | str s => simp

theorem idsBelowB_le {h : List Message} {c : Nat} (hb : idsBelowB h c = true)
    {x : Nat} (hx : x ∈ msgNumIds h) : x ≤ c := by
  rw [idsBelowB, List.all_eq_true] at hb
  obtain ⟨m, hm, hxid⟩ := List.mem_filterMap.mp hx
  have hmb := hb m hm
  cases hid : m._id with
  | none => rw [hid] at hxid; simp at hxid
  | some i =>
    cases i with
    | num n =>
      rw [hid] at hxid hmb
      simp only [Option.some.injEq] at hxid
      simp only [decide_eq_true_eq] at hmb
      omega
    | str s => rw [hid] at hxid; simp at hxid

theorem addMessage_unfold {σ : Type} (m : AIManager σ) (role : String) (content : Content) :
    (m.addMessage role content).2.conversationHistory =
      m.conversationHistory ++ [freshMessage role content (m.messageIdCounter + 1)] ∧
    (m.addMessage role content).2.messageIdCounter = m.messageIdCounter + 1 :=
  ⟨rfl, rfl⟩

theorem msgNumIds_append_fresh (h : List Message) (role : String) (content : Content) (n : Nat) :
    msgNumIds (h ++ [freshMessage role content n]) = msgNumIds h ++ [n] := by
  simp [msgNumIds, freshMessage, List.filterMap_append]

theorem idsBelowB_append_fresh {h : List Message} {c : Nat} (hb : idsBelowB h c = true)
    (role : String) (content : Content) :
    idsBelowB (h ++ [freshMessage role content (c + 1)]) (c + 1) = true := by
  rw [idsBelowB, List.all_append]
  have h1 : idsBelowB h (c + 1) = true := idsBelowB_mono hb (Nat.le_succ c)
  rw [idsBelowB] at h1
  rw [h1]
  simp [freshMessage]

theorem chain_append_fresh {h : List Message} {c : Nat} (hb : idsBelowB h c = true)
    (hch : List.Chain' (· < ·) (msgNumIds h)) (role : String) (content : Content) :
    List.Chain' (· < ·) (msgNumIds (h ++ [freshMessage role content (c + 1)])) := by
  rw [msgNumIds_append_fresh]
  rw [List.chain'_append]
  refine ⟨hch, List.chain'_singleton _, ?_⟩
  intro x hx y hy
  simp only [List.head?_cons, Option.mem_def, Option.some.injEq] at hy
  subst hy
  have hxmem : x ∈ msgNumIds h := by
    cases hgl : (msgNumIds h).getLast? with
    | none => rw [hgl] at hx; simp at hx
    | some a =>
      rw [hgl] at hx
      simp only [Option.mem_def, Option.some.injEq] at hx
      subst hx
      exact List.mem_of_mem_getLast? hgl
  have := idsBelowB_le hb hxmem
  omega

theorem applyAdds_props {σ : Type} :
    ∀ (adds : List (String × Content)) (m : AIManager σ),
    idsBelowB m.conversationHistory m.messageIdCounter = true →
    (applyAdds m adds).conversationHistory.take m.conversationHistory.length =
      m.conversationHistory ∧
    (applyAdds m adds).conversationHistory.length =
      m.conversationHistory.length + adds.length ∧
    (List.Chain' (· < ·) (msgNumIds m.conversationHistory) →
      List.Chain' (· < ·) (msgNumIds (applyAdds m adds).conversationHistory)) ∧
    idsBelowB (applyAdds m adds).conversationHistory (applyAdds m adds).messageIdCounter =
      true := by
  intro adds
  induction adds with
  | nil =>
    intro m hb
    exact ⟨by simp [applyAdds], by simp [applyAdds], fun hc => hc, hb⟩
  | cons rc rest ih =>
    intro m hb
    have hstep : applyAdds m (rc :: rest) = applyAdds (m.addMessage rc.1 rc.2).2 rest := rfl
    set m1 := (m.addMessage rc.1 rc.2).2 with hm1
    have hh1 : m1.conversationHistory = m.conversationHistory ++
        [freshMessage rc.1 rc.2 (m.messageIdCounter + 1)] := rfl
    have hc1 : m1.messageIdCounter = m.messageIdCounter + 1 := rfl
    have hb1 : idsBelowB m1.conversationHistory m1.messageIdCounter = true := by
      rw [hh1, hc1]
      exact idsBelowB_append_fresh hb rc.1 rc.2
    obtain ⟨ht, hl, hch, hbf⟩ := ih m1 hb1
    rw [hstep]
    refine ⟨?_, ?_, ?_, hbf⟩
    · have h2 : (applyAdds m1 rest).conversationHistory.take m1.conversationHistory.length =
        m1.conversationHistory := ht
      have hle : m.conversationHistory.length ≤ m1.conversationHistory.length := by
        rw [hh1]; simp
      calc (applyAdds m1 rest).conversationHistory.take m.conversationHistory.length
          = ((applyAdds m1 rest).conversationHistory.take
              m1.conversationHistory.length).take m.conversationHistory.length := by
            rw [List.take_take, Nat.min_eq_left hle]
        _ = m1.conversationHistory.take m.conversationHistory.length := by rw [h2]
        _ = m.conversationHistory := by rw [hh1, List.take_left]
    · rw [hl, hh1]
      simp
      omega
    · intro hchain
      apply hch
      rw [hh1]
      exact chain_append_fresh hb hchain rc.1 rc.2

/-- Claim C8: appends through `addMessage` keep the existing messages (and
their ids) unchanged, extend the history by exactly the appended messages, and
keep the numeric ids strictly increasing in append order with the id counter
bounding every id; `ensureMessageId` never reassigns an existing numeric id;
projections clone messages with ids intact; only `clearHistory` resets the
history and the id counter to 0. -/
theorem message_ids_monotonic :
    (∀ {σ : Type} (m : AIManager σ) (adds : List (String × Content)),
      idsBelowB m.conversationHistory m.messageIdCounter = true →
      (applyAdds m adds).conversationHistory.take m.conversationHistory.length =
        m.conversationHistory ∧
      (applyAdds m adds).conversationHistory.length =
        m.conversationHistory.length + adds.length ∧
      (List.Chain' (· < ·) (msgNumIds m.conversationHistory) →
        List.Chain' (· < ·) (msgNumIds (applyAdds m adds).conversationHistory)) ∧
      idsBelowB (applyAdds m adds).conversationHistory
        (applyAdds m adds).messageIdCounter = true) ∧
    (∀ (c : Nat) (msg : Message) (n : Nat), msg._id = some (MsgId.num n) →
      (ensureMessageId c msg).2 = msg) ∧
    (∀ msg : Message, (cloneMessage msg)._id = msg._id) ∧
    (∀ {σ : Type} (m : AIManager σ), (m.getHistoryViewM false 0).1 = m.conversationHistory) ∧
    (∀ {σ : Type} (m : AIManager σ),
      m.clearHistory.conversationHistory = [] ∧ m.clearHistory.messageIdCounter = 0) := by
  refine ⟨fun m adds hb => applyAdds_props adds m hb, ?_, fun _ => rfl, ?_, fun m => ⟨rfl, rfl⟩⟩
  · intro c msg n h
    simp [ensureMessageId, h]
  · intro σ m
    show List.map cloneMessage m.conversationHistory = m.conversationHistory
    rw [show cloneMessage = id from rfl, List.map_id]

theorem message_ids_monotonic_witness :
    (applyAdds ({} : AIManager Unit)
        [("user", Content.str "a"), ("assistant", Content.str "b")]).conversationHistory.take
      ([] : List Message).length = [] ∧
    (applyAdds ({} : AIManager Unit)
        [("user", Content.str "a"), ("assistant", Content.str "b")]).conversationHistory.length =
      ([] : List Message).length + 2 ∧
    (List.Chain' (· < ·) (msgNumIds ([] : List Message)) →
      List.Chain' (· < ·) (msgNumIds (applyAdds ({} : AIManager Unit)
        [("user", Content.str "a"), ("assistant", Content.str "b")]).conversationHistory)) ∧
    idsBelowB (applyAdds ({} : AIManager Unit)
        [("user", Content.str "a"), ("assistant", Content.str "b")]).conversationHistory
      (applyAdds ({} : AIManager Unit)
        [("user", Content.str "a"), ("assistant", Content.str "b")]).messageIdCounter = true :=
  message_ids_monotonic.1 ({} : AIManager Unit)
    [("user", Content.str "a"), ("assistant", Content.str "b")] rfl

theorem findLastIdx_concat {α : Type} (p : α → Bool) (l : List α) (x : α) (hx : p x = true) :
    findLastIdx p (l ++ [x]) = some l.length := by
  induction l with
  | nil => simp [findLastIdx, hx]
  | cons y rest ih => simp [findLastIdx, ih]

theorem set_concat_length {α : Type} (l : List α) (x v : α) :
    (l ++ [x]).set l.length v = l ++ [v] := by
  induction l with
  | nil => rfl
  | cons y rest ih => simp [ih]

theorem getHistoryViewFn_false_zero (h : List Message) : getHistoryViewFn h false 0 = h := by
  show List.map cloneMessage h = h
  rw [show cloneMessage = id from rfl, List.map_id]

theorem buildAugmentedPrompt_str {σ : Type} (tools : List (UniversalTool σ)) (orig : String)
    (s : σ) :
    (buildAugmentedPrompt tools (Content.str orig) s).1 =
      Content.str ("Code summary:\n" ++ augSummary tools s ++ "\n\n" ++ orig) := by
  cases hf : tools.find? (fun t => t.name == "code_summary") with
  | none => simp only [buildAugmentedPrompt, augSummary, hf]
  | some tool =>
    cases hr : (tool.handler "" s).1 with
    | ok summary => simp only [buildAugmentedPrompt, augSummary, hf, hr]
    | error msg => simp only [buildAugmentedPrompt, augSummary, hf, hr]

theorem augmented_ne (S orig : String) :
    Content.str ("Code summary:\n" ++ S ++ "\n\n" ++ orig) ≠ Content.str orig := by
  intro h
  injection h with h'
  have hlen := congrArg String.length h'
  simp only [String.length_append] at hlen
  have h14 : ("Code summary:\n" : String).length = 14 := rfl
  have h2 : ("\n\n" : String).length = 2 := rfl
  omega

/-- Claim C10: on every fresh (non-continuation) `sendMessage` call — for any
`minimizeTokens`, `limitMessages` and `preAddedUserMessage` options — the
history stored in the manager is the id-repaired history plus (unless the
caller pre-added it) the fresh user message with its original, unaugmented
content; and whenever the outbound list (the possibly minimized/limited view of
that history, optionally prefixed by the system message) contains a user text
message, the latest such message is sent to the provider with its content
replaced by `"Code summary:\n" ++ augSummary ++ "\n\n" ++ original`, where
`augSummary` is the `code_summary` tool handler's (trimmed) output or a
bracketed placeholder when the tool is unavailable or its handler fails. -/
theorem prompt_augmentation {σ : Type} (m : AIManager σ) (userMessage : String)
    (options : SendOptions) (s : σ) (hist base : List Message)
    (hni : userMessage ≠ "__continue_tools__")
    (hhist : hist = (ensureHistoryMessageIds m.messageIdCounter m.conversationHistory).2 ++
      (if options.preAddedUserMessage then []
       else [freshMessage "user" (Content.str userMessage)
         ((ensureHistoryMessageIds m.messageIdCounter m.conversationHistory).1 + 1)]))
    (hbase : base = (match m.systemPrompt with
      | some sp =>
        if ((getHistoryViewFn hist options.minimizeTokens
              options.limitMessages).head?.map (·.role)).getD "" ≠ "system" then
          { role := "system", content := Content.str sp } ::
            getHistoryViewFn hist options.minimizeTokens options.limitMessages
        else getHistoryViewFn hist options.minimizeTokens options.limitMessages
      | none => getHistoryViewFn hist options.minimizeTokens options.limitMessages)) :
    (m.sendPrelude userMessage options s).1.conversationHistory = hist ∧
    ∀ j target orig,
      findLatestUserTextMessageIndex base = some j →
      base.get? j = some target →
      target.content = Content.str orig →
      (m.sendPrelude userMessage options s).2.1 =
        base.set j { target with content := Content.str ("Code summary:\n" ++ augSummary m.tools s ++ "\n\n" ++ orig) } := by
  have hic : (userMessage == "__continue_tools__") = false := by simp [hni]
  have hfresh : ensureMessageId
      (ensureHistoryMessageIds m.messageIdCounter m.conversationHistory).1
      { role := "user", content := Content.str userMessage } =
      ((ensureHistoryMessageIds m.messageIdCounter m.conversationHistory).1 + 1,
       freshMessage "user" (Content.str userMessage)
         ((ensureHistoryMessageIds m.messageIdCounter m.conversationHistory).1 + 1)) := rfl
  subst hbase
  subst hhist
  cases hpa : options.preAddedUserMessage with
  | true =>
    rw [if_pos rfl, List.append_nil]
    constructor
    · simp [AIManager.sendPrelude, hic, hpa]
    · intro j target orig hj hget hcontent
      simp only [AIManager.sendPrelude, hic, hpa, Bool.not_false, Bool.not_true,
        Bool.true_and, Bool.and_false, Bool.false_and, Bool.false_eq_true,
        eq_self_iff_true, if_false, if_true]
      rw [hj]
      dsimp only
      rw [hget]
      dsimp only
      rw [hcontent, buildAugmentedPrompt_str]
      have hcond : ((match Content.str
            ("Code summary:\n" ++ augSummary m.tools s ++ "\n\n" ++ orig) with
          | Content.str _ => true
          | _ => false) &&
          (Content.str ("Code summary:\n" ++ augSummary m.tools s ++ "\n\n" ++ orig) ≠
            Content.str orig)) = true := by
        simp [augmented_ne (augSummary m.tools s) orig]
      rw [hcond, if_pos rfl]
  | false =>
    rw [if_neg Bool.false_ne_true]
    constructor
    · simp [AIManager.sendPrelude, hic, hpa, hfresh]
    · intro j target orig hj hget hcontent
      simp only [AIManager.sendPrelude, hic, hpa, hfresh, Bool.not_false, Bool.not_true,
        Bool.true_and, Bool.and_self, Bool.false_eq_true, eq_self_iff_true,
        if_false, if_true]
      rw [hj]
      dsimp only
      rw [hget]
      dsimp only
      rw [hcontent, buildAugmentedPrompt_str]
      have hcond : ((match Content.str
            ("Code summary:\n" ++ augSummary m.tools s ++ "\n\n" ++ orig) with
          | Content.str _ => true
          | _ => false) &&
          (Content.str ("Code summary:\n" ++ augSummary m.tools s ++ "\n\n" ++ orig) ≠
            Content.str orig)) = true := by
        simp [augmented_ne (augSummary m.tools s) orig]
      rw [hcond, if_pos rfl]

/-- Witness for C10 on the token-minimizing path: a concrete `code_summary`
tool returning `"SUM"`, options `{ minimizeTokens := true }`. -/
theorem prompt_augmentation_witness :
    ("hi" ≠ "__continue_tools__") ∧
    ((AIManager.sendPrelude (σ := Unit)
        { tools := [{ name := "code_summary", handler := fun _ s => (Except.ok "SUM", s) }] }
        "hi" { minimizeTokens := true } ()).1.conversationHistory =
      [freshMessage "user" (Content.str "hi") 1] ∧
     (AIManager.sendPrelude (σ := Unit)
        { tools := [{ name := "code_summary", handler := fun _ s => (Except.ok "SUM", s) }] }
        "hi" { minimizeTokens := true } ()).2.1 =
      (getHistoryViewFn [freshMessage "user" (Content.str "hi") 1] true 0).set 0
        { freshMessage "user" (Content.str "hi") 1 with content := Content.str ("Code summary:\n" ++ augSummary [{ name := "code_summary", handler := fun _ s => (Except.ok "SUM", s) }] () ++ "\n\n" ++ "hi") }) :=
  ⟨by decide,
    (prompt_augmentation
      { tools := [{ name := "code_summary", handler := fun _ s => (Except.ok "SUM", s) }] }
      "hi" { minimizeTokens := true } ()
      [freshMessage "user" (Content.str "hi") 1]
      (getHistoryViewFn [freshMessage "user" (Content.str "hi") 1] true 0)
      (by decide) rfl rfl).1,
    (prompt_augmentation
      { tools := [{ name := "code_summary", handler := fun _ s => (Except.ok "SUM", s) }] }
      "hi" { minimizeTokens := true } ()
      [freshMessage "user" (Content.str "hi") 1]
      (getHistoryViewFn [freshMessage "user" (Content.str "hi") 1] true 0)
      (by decide) rfl rfl).2 0 (freshMessage "user" (Content.str "hi") 1) "hi"
      (by decide) (by decide) rfl⟩

/-- Claim C5: the projection leaves the canonical store (and the whole manager)
unchanged — it only ever mutates cloned messages — and is deterministic: two
successive `getHistoryView(true, limit)` calls on the unchanged manager return
identical output; the view is computed from the canonical store alone (managers
with equal stores project equally). -/
theorem historyView_pure_and_deterministic {σ : Type} :
    (∀ (m : AIManager σ) (minimizeTokens : Bool) (limitMessages : Nat),
      (m.getHistoryViewM minimizeTokens limitMessages).2 = m) ∧
    (∀ (m : AIManager σ) (limitMessages : Nat),
      (((m.getHistoryViewM true limitMessages).2).getHistoryViewM true limitMessages).1 =
        (m.getHistoryViewM true limitMessages).1) ∧
    (∀ (m m' : AIManager σ) (minimizeTokens : Bool) (limitMessages : Nat),
      m.conversationHistory = m'.conversationHistory →
      (m.getHistoryViewM minimizeTokens limitMessages).1 =
        (m'.getHistoryViewM minimizeTokens limitMessages).1) :=
  ⟨fun _ _ _ => rfl, fun _ _ => rfl, fun m m' mt l h => by
    simp only [AIManager.getHistoryViewM, h]⟩

/-- Witness for C5: managers sharing a store (one with a system prompt, one
without) project identically. -/
theorem historyView_pure_witness :
    ((AIManager.getHistoryViewM (σ := Unit)
        { conversationHistory := [userTextMessage 1 "a"], systemPrompt := some "X" }
        true 1).1) =
    ((AIManager.getHistoryViewM (σ := Unit)
        { conversationHistory := [userTextMessage 1 "a"] } true 1).1) :=
  historyView_pure_and_deterministic.2.2
    { conversationHistory := [userTextMessage 1 "a"], systemPrompt := some "X" }
    { conversationHistory := [userTextMessage 1 "a"] } true 1 rfl

/-- Claim C1: with a stub provider whose first response is exactly one `echo`
tool call with argument `"hi"` and whose second response is plain text
`"done"`, and an `echo` tool whose handler returns its argument,
`sendMessage("hi")` leaves the canonical history as
`[user "hi", assistant [ToolUse echo], user [ToolResult "hi"], assistant "done"]`
and invokes the provider's `callAPI` exactly twice. -/
theorem sendMessage_echo_scenario :
    (AIManager.sendMessage
      { providers := [("P", fun n =>
          if n = 0 then
            { content := "", toolCalls := [{ id := "tc1", name := "echo", arguments := "hi" }] }
          else { content := "done" })]
        currentProvider := some "P"
        tools := [{ name := "echo", handler := fun arg s => (Except.ok arg, s) }] }
      "hi" {} ()).toOption.map
        (fun out => (out.manager.conversationHistory, out.providerCalls)) =
    some
      ([{ role := "user", content := Content.str "hi", _id := some (MsgId.num 1) },
        { role := "assistant"
          content := Content.blocks [ContentBlock.toolUse "tc1" "echo" "hi"]
          _id := some (MsgId.num 2)
          metadata := some { toolCallIds := some ["tc1"] } },
        { role := "user"
          content := Content.blocks [ContentBlock.toolResult "tc1" "hi" false]
          _id := some (MsgId.num 3)
          metadata := some { toolCallIds := some ["tc1"] } },
        { role := "assistant", content := Content.str "done", _id := some (MsgId.num 4) }],
       2) := by
  decide

/-! ## C4: the minimizing history view -/

theorem mapGet_mapSet_self (m : ToolInfoMap) (k : String) (v : ToolMeta) :
    mapGet (mapSet m k v) k = some v := by
  simp [mapGet, mapSet, List.find?_cons]

theorem mapGet_mapSet_ne (m : ToolInfoMap) {k k' : String} (v : ToolMeta) (h : k' ≠ k) :
    mapGet (mapSet m k v) k' = mapGet m k' := by
  have hbeq : (k == k') = false := by
    simp [BEq.beq]
    exact fun he => h he.symm
  simp [mapGet, mapSet, List.find?_cons, hbeq]

theorem toolInfoUseStep_preserve {acc : ToolInfoMap} {p : ContentBlock} {k : String}
    (h : ∀ id name input, p = ContentBlock.toolUse id name input → k ≠ id) :
    mapGet (toolInfoUseStep acc p) k = mapGet acc k := by
  cases p with
  | toolUse id name input => exact mapGet_mapSet_ne acc _ (h id name input rfl)
  | text t => rfl
  | toolResult a b c => rfl

theorem toolInfoResultStep_preserve {acc : ToolInfoMap} {p : ContentBlock} {k : String}
    (h : ∀ tuid c e, p = ContentBlock.toolResult tuid c e → k ≠ tuid) :
    mapGet (toolInfoResultStep acc p) k = mapGet acc k := by
  cases p with
  | toolResult tuid c e =>
    simp only [toolInfoResultStep]
    split
    · exact mapGet_mapSet_ne acc _ (h tuid c e rfl)
    · rfl
  | text t => rfl
  | toolUse a b c => rfl

theorem useFold_preserve {k : String} :
    ∀ (parts : List ContentBlock) (acc : ToolInfoMap),
    (∀ id name input, ContentBlock.toolUse id name input ∈ parts → k ≠ id) →
    mapGet (parts.foldl toolInfoUseStep acc) k = mapGet acc k := by
  intro parts
  induction parts with
  | nil => intro acc h; rfl
  | cons p rest ih =>
    intro acc h
    rw [List.foldl_cons, ih _ (fun id name input hmem => h id name input (List.mem_cons_of_mem _ hmem)),
      toolInfoUseStep_preserve (fun id name input hp => h id name input (hp ▸ List.mem_cons_self _ _))]

theorem resultFold_preserve {k : String} :
    ∀ (parts : List ContentBlock) (acc : ToolInfoMap),
    (∀ tuid c e, ContentBlock.toolResult tuid c e ∈ parts → k ≠ tuid) →
    mapGet (parts.foldl toolInfoResultStep acc) k = mapGet acc k := by
  intro parts
  induction parts with
  | nil => intro acc h; rfl
  | cons p rest ih =>
    intro acc h
    rw [List.foldl_cons, ih _ (fun a b c hmem => h a b c (List.mem_cons_of_mem _ hmem)),
      toolInfoResultStep_preserve (fun a b c hp => h a b c (hp ▸ List.mem_cons_self _ _))]

theorem toolInfoOfMessage_preserve {k : String} {msg : Message} (acc : ToolInfoMap)
    (h : k ∉ msgTouchedIds msg) :
    mapGet (toolInfoOfMessage acc msg) k = mapGet acc k := by
  unfold toolInfoOfMessage
  split
  · cases hc : msg.content with
    | str s => rfl
    | blocks parts =>
      apply useFold_preserve
      intro id name input hmem hk
      apply h
      subst hk
      simp only [msgTouchedIds, hc]
      exact List.mem_filterMap.mpr ⟨_, hmem, rfl⟩
  · split
    · cases hc : msg.content with
      | str s => rfl
      | blocks parts =>
        apply resultFold_preserve
        intro tuid c e hmem hk
        apply h
        subst hk
        simp only [msgTouchedIds, hc]
        exact List.mem_filterMap.mpr ⟨_, hmem, rfl⟩
    · rfl

theorem useFold_mem {e : Exchange} :
    ∀ (exs : List Exchange) (acc : ToolInfoMap), (exs.map (·.callId)).Nodup → e ∈ exs →
    mapGet ((exs.map fun f => ContentBlock.toolUse f.callId f.toolName f.input).foldl
      toolInfoUseStep acc) e.callId = some { name := some e.toolName, id := some e.callId } := by
  intro exs
  induction exs with
  | nil => intro acc _ h; cases h
  | cons f rest ih =>
    intro acc hnd hmem
    rw [List.map_cons, List.foldl_cons]
    have hnd' := hnd
    rw [List.map_cons, List.nodup_cons] at hnd'
    rcases List.mem_cons.mp hmem with rfl | hmem'
    · rw [useFold_preserve]
      · show mapGet (mapSet acc e.callId _) e.callId = _
        exact mapGet_mapSet_self ..
      · intro id name input hb heq
        obtain ⟨g, hg, hgb⟩ := List.mem_map.mp hb
        injection hgb with h1 h2 h3
        apply hnd'.1
        rw [heq, ← h1]
        exact List.mem_map.mpr ⟨g, hg, rfl⟩
    · exact ih _ hnd'.2 hmem'

theorem resultFold_mem {e : Exchange} :
    ∀ (exs : List Exchange) (acc : ToolInfoMap), (exs.map (·.callId)).Nodup →
    (∀ f ∈ exs, f.callId ≠ "") → e ∈ exs →
    mapGet acc e.callId = some { name := some e.toolName, id := some e.callId } →
    mapGet ((exs.map fun f => ContentBlock.toolResult f.callId f.output f.isErr).foldl
      toolInfoResultStep acc) e.callId = some (metaOf e) := by
  intro exs
  induction exs with
  | nil => intro acc _ _ h; cases h
  | cons f rest ih =>
    intro acc hnd hne hmem hacc
    rw [List.map_cons, List.foldl_cons]
    have hnd' := hnd
    rw [List.map_cons, List.nodup_cons] at hnd'
    rcases List.mem_cons.mp hmem with rfl | hmem'
    · rw [resultFold_preserve]
      · show mapGet (toolInfoResultStep acc (ContentBlock.toolResult e.callId e.output e.isErr))
          e.callId = _
        simp only [toolInfoResultStep]
        rw [if_pos (hne e (List.mem_cons_self e rest))]
        rw [hacc]
        show mapGet (mapSet acc e.callId _) e.callId = _
        rw [mapGet_mapSet_self]
        simp only [Option.getD_some]
        have hid : strTruthy (some e.callId) = true := by
          simp [strTruthy, hne e (List.mem_cons_self e rest)]
        rw [if_pos hid]
        rfl
      · intro tuid c e2 hb heq
        obtain ⟨g, hg, hgb⟩ := List.mem_map.mp hb
        injection hgb with h1 h2 h3
        apply hnd'.1
        rw [heq, ← h1]
        exact List.mem_map.mpr ⟨g, hg, rfl⟩
    · have hpres : mapGet (toolInfoResultStep acc
          (ContentBlock.toolResult f.callId f.output f.isErr)) e.callId = mapGet acc e.callId := by
        apply toolInfoResultStep_preserve
        intro tuid c e2 hp heq
        injection hp with h1 h2 h3
        apply hnd'.1
        rw [h1, ← heq]
        exact List.mem_map.mpr ⟨e, hmem', rfl⟩
      exact ih _ hnd'.2 (fun g hg => hne g (List.mem_cons_of_mem _ hg)) hmem'
        (hpres.trans hacc)

theorem toolInfo_turn {e : Exchange} (n n' : Nat) (τ : Option String) (exs : List Exchange)
    (acc : ToolInfoMap) (hnd : (exs.map (·.callId)).Nodup) (hne : ∀ f ∈ exs, f.callId ≠ "")
    (hmem : e ∈ exs) :
    mapGet (toolInfoOfMessage (toolInfoOfMessage acc (assistantToolMessage n τ exs))
      (toolResultMessage n' exs)) e.callId = some (metaOf e) := by
  have h1 : toolInfoOfMessage acc (assistantToolMessage n τ exs) =
      (exs.map fun f => ContentBlock.toolUse f.callId f.toolName f.input).foldl
        toolInfoUseStep acc := by
    show (assistantToolBlocks τ exs).foldl toolInfoUseStep acc = _
    unfold assistantToolBlocks
    cases τ with
    | none => rfl
    | some t => rfl
  have h2 : ∀ acc2, toolInfoOfMessage acc2 (toolResultMessage n' exs) =
      (exs.map fun f => ContentBlock.toolResult f.callId f.output f.isErr).foldl
        toolInfoResultStep acc2 := fun _ => rfl
  rw [h2, h1]
  exact resultFold_mem exs _ hnd hne hmem (useFold_mem exs acc hnd hmem)

theorem denote_append (xs ys : List Turn) : ∀ n,
    denote n (xs ++ ys) = denote n xs ++ denote (n + msgLen xs) ys := by
  induction xs with
  | nil => intro n; simp [denote, msgLen]
  | cons t rest ih =>
    intro n
    have hm : msgLen (t :: rest) = turnLen t + msgLen rest := by
      simp [msgLen]
    rw [List.cons_append]
    show denoteTurn n t ++ denote (n + turnLen t) (rest ++ ys) = _
    rw [ih (n + turnLen t), hm, ← Nat.add_assoc]
    show _ = denoteTurn n t ++ denote (n + turnLen t) rest ++ denote (n + turnLen t + msgLen rest) ys
    rw [List.append_assoc]

theorem denote_length (ts : List Turn) : ∀ n, (denote n ts).length = msgLen ts := by
  induction ts with
  | nil => intro n; rfl
  | cons t rest ih =>
    intro n
    show (denoteTurn n t ++ denote (n + turnLen t) rest).length = _
    rw [List.length_append, ih]
    cases t <;> simp [denoteTurn, turnLen, msgLen]

theorem denote_preserve {k : String} :
    ∀ (ts : List Turn), k ∉ allCallIds ts → ∀ (acc : ToolInfoMap) (n : Nat),
    mapGet ((denote n ts).foldl toolInfoOfMessage acc) k = mapGet acc k := by
  intro ts
  induction ts with
  | nil => intro _ acc n; rfl
  | cons t rest ih =>
    intro hk acc n
    have hk1 : k ∉ turnCallIds t := fun h => hk (by
      simp only [allCallIds, List.flatMap_cons, List.mem_append]
      exact Or.inl h)
    have hk2 : k ∉ allCallIds rest := fun h => hk (by
      simp only [allCallIds, List.flatMap_cons, List.mem_append]
      exact Or.inr h)
    show mapGet ((denoteTurn n t ++ denote (n + turnLen t) rest).foldl toolInfoOfMessage acc)
      k = _
    rw [List.foldl_append, ih hk2]
    cases t with
    | userText s => rfl
    | assistantText s => rfl
    | toolTurn τ exs =>
      have hA : k ∉ msgTouchedIds (assistantToolMessage (n + 1) τ exs) := by
        intro hmem
        apply hk1
        simp only [msgTouchedIds, assistantToolMessage, assistantToolBlocks] at hmem
        rw [List.filterMap_append] at hmem
        rcases List.mem_append.mp hmem with h | h
        · cases τ with
          | none => simp [List.filterMap] at h
          | some t2 => simp [List.filterMap] at h
        · rw [List.filterMap_map] at h
          obtain ⟨g, hg, hgb⟩ := List.mem_filterMap.mp h
          simp only [Function.comp_def] at hgb
          injection hgb with h1
          subst h1
          exact List.mem_map.mpr ⟨g, hg, rfl⟩
      have hR : k ∉ msgTouchedIds (toolResultMessage (n + 2) exs) := by
        intro hmem
        apply hk1
        simp only [msgTouchedIds, toolResultMessage] at hmem
        rw [List.filterMap_map] at hmem
        obtain ⟨g, hg, hgb⟩ := List.mem_filterMap.mp hmem
        simp only [Function.comp_def] at hgb
        injection hgb with h1
        subst h1
        exact List.mem_map.mpr ⟨g, hg, rfl⟩
      show mapGet (toolInfoOfMessage
        (toolInfoOfMessage acc (assistantToolMessage (n + 1) τ exs))
        (toolResultMessage (n + 2) exs)) k = _
      rw [toolInfoOfMessage_preserve _ hR, toolInfoOfMessage_preserve _ hA]

theorem buildToolInfo_denote {e : Exchange} (ts₁ ts₂ : List Turn) (τ : Option String)
    (exs : List Exchange) (n : Nat)
    (hwf : turnsWF (ts₁ ++ [Turn.toolTurn τ exs] ++ ts₂)) (hmem : e ∈ exs) :
    mapGet (buildToolInfo (denote n (ts₁ ++ [Turn.toolTurn τ exs] ++ ts₂))) e.callId =
      some (metaOf e) := by
  obtain ⟨hok, hnd⟩ := hwf
  have hids : allCallIds (ts₁ ++ [Turn.toolTurn τ exs] ++ ts₂) =
      allCallIds ts₁ ++ (exs.map (·.callId) ++ allCallIds ts₂) := by
    simp [allCallIds, turnCallIds]
  rw [hids] at hnd
  have hnd2 := (List.nodup_append.mp hnd).2.1
  have hndexs : (exs.map (·.callId)).Nodup := (List.nodup_append.mp hnd2).1
  have hne : ∀ f ∈ exs, f.callId ≠ "" := by
    intro f hf
    have := hok
    rw [List.all_eq_true] at this
    have h3 := this (Turn.toolTurn τ exs) (by simp)
    simp only [turnOK, Bool.and_eq_true, List.all_eq_true] at h3
    exact fun hc => by simpa [hc] using (h3.2 f hf).1
  have hmemid : e.callId ∈ exs.map (·.callId) := List.mem_map.mpr ⟨e, hmem, rfl⟩
  have hnotin2 : e.callId ∉ allCallIds ts₂ := by
    intro hc
    exact (List.disjoint_of_nodup_append hnd2) hmemid hc
  rw [buildToolInfo, denote_append, denote_append, List.foldl_append, List.foldl_append]
  rw [denote_preserve ts₂ hnotin2]
  show mapGet (toolInfoOfMessage
    (toolInfoOfMessage (List.foldl toolInfoOfMessage [] (denote n ts₁))
      (assistantToolMessage (n + msgLen ts₁ + 1) τ exs))
    (toolResultMessage (n + msgLen ts₁ + 2) exs)) e.callId = _
  exact toolInfo_turn _ _ τ exs _ hndexs hne hmem

theorem findLastIdx_append {α : Type} (p : α → Bool) (xs ys : List α) :
    findLastIdx p (xs ++ ys) =
      match findLastIdx p ys with
      | some j => some (xs.length + j)
      | none => findLastIdx p xs := by
  induction xs with
  | nil =>
    simp only [List.nil_append, List.length_nil]
    cases findLastIdx p ys <;> simp [findLastIdx]
  | cons x rest ih =>
    rw [List.cons_append]
    show (match findLastIdx p (rest ++ ys) with
      | some j => some (j + 1)
      | none => if p x then some 0 else none) = _
    rw [ih]
    cases h : findLastIdx p ys with
    | some j =>
      simp only [List.length_cons]
      show some (rest.length + j + 1) = some (rest.length + 1 + j)
      rw [Nat.add_right_comm]
    | none =>
      show (match findLastIdx p rest with
        | some j => some (j + 1)
        | none => if p x then some 0 else none) = _
      rfl

theorem turnLen_pos (t : Turn) : 1 ≤ turnLen t := by
  cases t <;> simp [turnLen]

theorem isToolAssistant_userText (n : Nat) (s : String) :
    isToolAssistant (userTextMessage n s) = false := rfl

theorem isToolAssistant_assistantText (n : Nat) (s : String) :
    isToolAssistant (assistantTextMessage n s) = false := by
  simp [isToolAssistant, assistantTextMessage]

theorem isToolAssistant_toolResult (n : Nat) (exs : List Exchange) :
    isToolAssistant (toolResultMessage n exs) = false := by
  simp [isToolAssistant, toolResultMessage]

theorem isToolAssistant_assistantTool (n : Nat) (τ : Option String) (exs : List Exchange)
    (hne : exs ≠ []) :
    isToolAssistant (assistantToolMessage n τ exs) = true := by
  cases exs with
  | nil => exact absurd rfl hne
  | cons e rest =>
    cases τ <;> simp [isToolAssistant, assistantToolMessage, assistantToolBlocks]

theorem findLastIdx_denote_toolfree (post : List Turn) (hpost : hasToolTurn post = false) :
    ∀ n, findLastIdx isToolAssistant (denote n post) = none := by
  induction post with
  | nil => intro n; rfl
  | cons t rest ih =>
    intro n
    have hrest : hasToolTurn rest = false := by
      simp only [hasToolTurn, List.any_cons, Bool.or_eq_false_iff] at hpost
      exact hpost.2
    have hstep := ih hrest
    cases t with
    | userText s =>
      show findLastIdx isToolAssistant (userTextMessage (n + 1) s :: denote (n + 1) rest) = none
      show (match findLastIdx isToolAssistant (denote (n + 1) rest) with
        | some j => some (j + 1)
        | none => if isToolAssistant (userTextMessage (n + 1) s) then some 0 else none) = none
      rw [hstep (n + 1), isToolAssistant_userText]
      rfl
    | assistantText s =>
      show (match findLastIdx isToolAssistant (denote (n + 1) rest) with
        | some j => some (j + 1)
        | none => if isToolAssistant (assistantTextMessage (n + 1) s) then some 0 else none) = none
      rw [hstep (n + 1), isToolAssistant_assistantText]
      rfl
    | toolTurn τ exs =>
      simp only [hasToolTurn, List.any_cons] at hpost
      exact absurd hpost (by simp)

theorem lastIdx_main (pre post : List Turn) (τ : Option String) (exs : List Exchange)
    (hne : exs ≠ []) (hpost : hasToolTurn post = false) :
    findLastToolInteractionIndex (denote 0 (pre ++ Turn.toolTurn τ exs :: post)) =
      some (msgLen pre) := by
  have hdec : denote 0 (pre ++ Turn.toolTurn τ exs :: post) =
      denote 0 pre ++ (assistantToolMessage (msgLen pre + 1) τ exs ::
        toolResultMessage (msgLen pre + 2) exs :: denote (msgLen pre + 2) post) := by
    rw [show pre ++ Turn.toolTurn τ exs :: post = pre ++ (Turn.toolTurn τ exs :: post) from rfl]
    rw [denote_append, Nat.zero_add]
    rfl
  rw [findLastToolInteractionIndex, hdec, findLastIdx_append]
  have htail : findLastIdx isToolAssistant
      (assistantToolMessage (msgLen pre + 1) τ exs ::
        toolResultMessage (msgLen pre + 2) exs :: denote (msgLen pre + 2) post) = some 0 := by
    show (match (match findLastIdx isToolAssistant (denote (msgLen pre + 2) post) with
        | some j => some (j + 1)
        | none =>
          if isToolAssistant (toolResultMessage (msgLen pre + 2) exs) then some 0 else none) with
      | some j => some (j + 1)
      | none =>
        if isToolAssistant (assistantToolMessage (msgLen pre + 1) τ exs) then some 0
        else none) = some 0
    rw [findLastIdx_denote_toolfree post hpost, isToolAssistant_toolResult,
      isToolAssistant_assistantTool _ _ _ hne]
    rfl
  rw [htail]
  show some ((denote 0 pre).length + 0) = some (msgLen pre)
  rw [denote_length, Nat.add_zero]

theorem get_denote_decomp (pre post : List Turn) (τ : Option String) (exs : List Exchange) :
    (denote 0 (pre ++ Turn.toolTurn τ exs :: post)).get? (msgLen pre) =
      some (assistantToolMessage (msgLen pre + 1) τ exs) := by
  rw [show pre ++ Turn.toolTurn τ exs :: post = pre ++ (Turn.toolTurn τ exs :: post) from rfl]
  rw [denote_append, Nat.zero_add, List.get?_append_right (by rw [denote_length])]
  rw [denote_length, Nat.sub_self]
  rfl

theorem lastIds_main (pre post : List Turn) (τ : Option String) (exs : List Exchange) :
    lastToolUseIdsOf (denote 0 (pre ++ Turn.toolTurn τ exs :: post)) (some (msgLen pre)) =
      some (exs.map (·.callId)) := by
  rw [lastToolUseIdsOf, get_denote_decomp]
  show (if (assistantToolMessage (msgLen pre + 1) τ exs).role == "assistant" then _ else _) =
    some (exs.map (·.callId))
  rw [show ((assistantToolMessage (msgLen pre + 1) τ exs).role == "assistant") = true from rfl,
    if_pos rfl]
  show some ((assistantToolBlocks τ exs).filterMap _) = _
  rw [show assistantToolBlocks τ exs =
    (match τ with | some t => [ContentBlock.text t] | none => []) ++
      exs.map (fun e => ContentBlock.toolUse e.callId e.toolName e.input) from rfl]
  rw [List.filterMap_append, List.filterMap_map]
  cases τ with
  | none =>
    simp only [List.filterMap_nil, List.nil_append]
    rw [show ((fun p => match p with
        | ContentBlock.toolUse id _ _ => some id
        | _ => none) ∘ fun e => ContentBlock.toolUse e.callId e.toolName e.input) =
      (fun e : Exchange => some e.callId) from rfl]
    exact congrArg some (congrFun (List.filterMap_eq_map fun e : Exchange => e.callId) exs)
  | some t =>
    rw [show List.filterMap (fun p => match p with
        | ContentBlock.toolUse id _ _ => some id
        | _ => none) [ContentBlock.text t] = [] from rfl]
    simp only [List.nil_append]
    rw [show ((fun p => match p with
        | ContentBlock.toolUse id _ _ => some id
        | _ => none) ∘ fun e => ContentBlock.toolUse e.callId e.toolName e.input) =
      (fun e : Exchange => some e.callId) from rfl]
    exact congrArg some (congrFun (List.filterMap_eq_map fun e : Exchange => e.callId) exs)

theorem minimizeLoop_append (ti : ToolInfoMap) (li : Option Nat) (lids : Option (List String))
    (xs : List Message) : ∀ (ys : List Message) (i : Nat) (acc : List Message),
    minimizeLoop ti li lids i (xs ++ ys) acc =
      minimizeLoop ti li lids (i + xs.length) ys (minimizeLoop ti li lids i xs acc) := by
  induction xs with
  | nil => intro ys i acc; simp [minimizeLoop]
  | cons m rest ih =>
    intro ys i acc
    rw [List.cons_append]
    show minimizeLoop ti li lids (i + 1) (rest ++ ys) (minimizeStep ti li lids acc i m) = _
    rw [ih ys (i + 1)]
    have : i + 1 + rest.length = i + (m :: rest).length := by
      simp only [List.length_cons]
      omega
    rw [this]
    rfl

theorem minimizeStep_str (ti : ToolInfoMap) (li : Option Nat) (lids : Option (List String))
    (acc : List Message) (i : Nat) (msg : Message) (s : String)
    (h : msg.content = Content.str s) :
    minimizeStep ti li lids acc i msg = acc ++ [msg] := by
  rw [minimizeStep]
  split
  · rfl
  · rw [h]
    rfl

theorem minimizeLoop_passthrough (ti : ToolInfoMap) (li : Option Nat)
    (lids : Option (List String)) (post : List Turn) (hpost : hasToolTurn post = false) :
    ∀ (n i : Nat) (acc : List Message),
    minimizeLoop ti li lids i (denote n post) acc = acc ++ denote n post := by
  induction post with
  | nil => intro n i acc; simp [denote, minimizeLoop]
  | cons t rest ih =>
    intro n i acc
    have hrest : hasToolTurn rest = false := by
      simp only [hasToolTurn, List.any_cons, Bool.or_eq_false_iff] at hpost
      exact hpost.2
    cases t with
    | userText s =>
      show minimizeLoop ti li lids (i + 1) (denote (n + 1) rest)
        (minimizeStep ti li lids acc i (userTextMessage (n + 1) s)) =
        acc ++ (userTextMessage (n + 1) s :: denote (n + 1) rest)
      rw [minimizeStep_str ti li lids acc i _ s rfl, ih hrest (n + 1) (i + 1)]
      simp
    | assistantText s =>
      show minimizeLoop ti li lids (i + 1) (denote (n + 1) rest)
        (minimizeStep ti li lids acc i (assistantTextMessage (n + 1) s)) =
        acc ++ (assistantTextMessage (n + 1) s :: denote (n + 1) rest)
      rw [minimizeStep_str ti li lids acc i _ s rfl, ih hrest (n + 1) (i + 1)]
      simp
    | toolTurn τ exs =>
      simp only [hasToolTurn, List.any_cons] at hpost
      exact absurd hpost (by simp)

theorem sinfo_ext {a b : SummaryInfo} (h1 : a.successCount = b.successCount)
    (h2 : a.failureCount = b.failureCount) (h3 : a.successNames = b.successNames)
    (h4 : a.failureNames = b.failureNames) : a = b := by
  cases a
  cases b
  cases h1
  cases h2
  cases h3
  cases h4
  rfl

theorem tst_ext {a b : TransformSt} (h1 : a.content = b.content)
    (h2 : a.hasNonSummaryText = b.hasNonSummaryText) (h3 : a.summaryInfo = b.summaryInfo)
    (h4 : a.summaryToolIds = b.summaryToolIds) (h5 : a.pending = b.pending) : a = b := by
  cases a
  cases b
  cases h1
  cases h2
  cases h3
  cases h4
  cases h5
  rfl

theorem strTruthy_of_ne {s : String} (h : s ≠ "") : strTruthy (some s) = true := by
  simp [strTruthy, h]

theorem batch_fold (exs : List Exchange) (hnm : ∀ e ∈ exs, e.toolName ≠ "") :
    ∀ s : SummaryInfo,
    (exs.map metaOf).foldl
      (fun summary meta =>
        if meta.isError then
          { summary with
            failureCount := summary.failureCount + 1,
            failureNames := summary.failureNames ++
              (if strTruthy meta.name then [meta.name.getD ""] else []) }
        else
          { summary with
            successCount := summary.successCount + 1,
            successNames := summary.successNames ++
              (if strTruthy meta.name then [meta.name.getD ""] else []) }) s =
    { successCount := s.successCount + (exs.filter fun e => !e.isErr).length
      failureCount := s.failureCount + (exs.filter fun e => e.isErr).length
      successNames := s.successNames ++ (exs.filter fun e => !e.isErr).map (·.toolName)
      failureNames := s.failureNames ++ (exs.filter fun e => e.isErr).map (·.toolName) } := by
  induction exs with
  | nil =>
    intro s
    apply sinfo_ext <;> simp
  | cons e rest ih =>
    intro s
    have hnm' : ∀ f ∈ rest, f.toolName ≠ "" := fun f hf => hnm f (List.mem_cons_of_mem e hf)
    have hname : strTruthy (some e.toolName) = true :=
      strTruthy_of_ne (hnm e (List.mem_cons_self e rest))
    rw [List.map_cons, List.foldl_cons]
    cases herr : e.isErr with
    | true =>
      have hstep : (if (metaOf e).isError then
          { s with
            failureCount := s.failureCount + 1,
            failureNames := s.failureNames ++
              (if strTruthy (metaOf e).name then [(metaOf e).name.getD ""] else []) }
        else
          { s with
            successCount := s.successCount + 1,
            successNames := s.successNames ++
              (if strTruthy (metaOf e).name then [(metaOf e).name.getD ""] else []) }) =
          { s with
            failureCount := s.failureCount + 1,
            failureNames := s.failureNames ++ [e.toolName] } := by
        simp only [metaOf, herr, if_true, hname]
        simp
      rw [hstep, ih hnm']
      apply sinfo_ext
      · simp [List.filter_cons, herr]
      · simp only [List.filter_cons, herr]
        simp
        omega
      · simp [List.filter_cons, herr]
      · simp only [List.filter_cons, herr]
        simp
    | false =>
      have hstep : (if (metaOf e).isError then
          { s with
            failureCount := s.failureCount + 1,
            failureNames := s.failureNames ++
              (if strTruthy (metaOf e).name then [(metaOf e).name.getD ""] else []) }
        else
          { s with
            successCount := s.successCount + 1,
            successNames := s.successNames ++
              (if strTruthy (metaOf e).name then [(metaOf e).name.getD ""] else []) }) =
          { s with
            successCount := s.successCount + 1,
            successNames := s.successNames ++ [e.toolName] } := by
        simp only [metaOf, herr, Bool.false_eq_true, if_false, hname]
        simp
      rw [hstep, ih hnm']
      apply sinfo_ext
      · simp only [List.filter_cons, herr]
        simp
        omega
      · simp [List.filter_cons, herr]
      · simp only [List.filter_cons, herr]
        simp
      · simp [List.filter_cons, herr]

theorem buildToolBatchSummary_metaOf (exs : List Exchange)
    (hnm : ∀ e ∈ exs, e.toolName ≠ "") :
    buildToolBatchSummary (exs.map metaOf) = summaryOfExchanges exs := by
  show (exs.map metaOf).foldl
      (fun summary meta =>
        if meta.isError then
          { summary with
            failureCount := summary.failureCount + 1,
            failureNames := summary.failureNames ++
              (if strTruthy meta.name then [meta.name.getD ""] else []) }
        else
          { summary with
            successCount := summary.successCount + 1,
            successNames := summary.successNames ++
              (if strTruthy meta.name then [meta.name.getD ""] else []) }) {} =
    summaryOfExchanges exs
  rw [batch_fold exs hnm {}]
  apply sinfo_ext <;> simp [summaryOfExchanges]

theorem batchIds_eq (exs : List Exchange) (hid : ∀ e ∈ exs, e.callId ≠ "") :
    ((exs.map metaOf).filterMap fun m => if strTruthy m.id then m.id else none) =
      exs.map (·.callId) := by
  induction exs with
  | nil => rfl
  | cons e rest ih =>
    rw [List.map_cons, List.filterMap_cons, List.map_cons]
    have hid' : ∀ f ∈ rest, f.callId ≠ "" := fun f hf => hid f (List.mem_cons_of_mem e hf)
    have htr : strTruthy (metaOf e).id = true := by
      show strTruthy (some e.callId) = true
      exact strTruthy_of_ne (hid e (List.mem_cons_self e rest))
    rw [htr, ih hid']
    rfl

theorem jsSetDedup_aux (xs : List String) :
    ∀ acc, xs.Nodup → (∀ x ∈ xs, x ∉ acc) →
    xs.foldl (fun acc x => if x ∈ acc then acc else acc ++ [x]) acc = acc ++ xs := by
  induction xs with
  | nil => intro acc _ _; simp
  | cons x rest ih =>
    intro acc hnd hdisj
    rw [List.foldl_cons, if_neg (hdisj x (List.mem_cons_self x rest))]
    rw [ih (acc ++ [x]) (List.nodup_cons.mp hnd).2]
    · simp
    · intro y hy
      rw [List.mem_append]
      rintro (h | h)
      · exact hdisj y (List.mem_cons_of_mem x hy) h
      · rw [List.mem_singleton] at h
        exact (List.nodup_cons.mp hnd).1 (h ▸ hy)

theorem jsSetDedup_eq (xs : List String) (h : xs.Nodup) : jsSetDedup xs = xs := by
  rw [jsSetDedup, jsSetDedup_aux xs [] h (by simp)]
  rfl

theorem appendBatch_eval (st : TransformSt) (exs : List Exchange) (hne : exs ≠ [])
    (hid : ∀ e ∈ exs, e.callId ≠ "") (hnm : ∀ e ∈ exs, e.toolName ≠ "")
    (hp : st.pending = exs.map metaOf) (hsi : st.summaryInfo = none) :
    appendBatch st =
      { st with
        summaryInfo := some (summaryOfExchanges exs)
        summaryToolIds := st.summaryToolIds ++ exs.map (·.callId)
        pending := [] } := by
  have hempty : st.pending.isEmpty = false := by
    rw [hp]
    cases exs with
    | nil => exact absurd rfl hne
    | cons e rest => rfl
  rw [appendBatch, if_neg (by rw [hempty]; exact Bool.false_ne_true)]
  rw [hp, hsi, buildToolBatchSummary_metaOf exs hnm, batchIds_eq exs hid]
  apply tst_ext
  · rfl
  · rfl
  · show some _ = some (summaryOfExchanges exs)
    refine congrArg some (sinfo_ext ?_ ?_ ?_ ?_) <;> simp
  · rfl
  · rfl

theorem transformPart_text (ti : ToolInfoMap) (st : TransformSt) (hpend : st.pending = [])
    (t : String) :
    transformPart ti st (ContentBlock.text t) =
      { st with content := st.content ++ [ContentBlock.text t], hasNonSummaryText := true } := by
  have hab : appendBatch st = st := by
    rw [appendBatch, if_pos (by rw [hpend]; rfl)]
  show (let st' := appendBatch st
    { st' with content := st'.content ++ [ContentBlock.text t], hasNonSummaryText := true }) = _
  rw [hab]

theorem transformPart_uses (ti : ToolInfoMap) (exs : List Exchange)
    (htool : ∀ e ∈ exs, mapGet ti e.callId = some (metaOf e))
    (hid : ∀ e ∈ exs, e.callId ≠ "") :
    ∀ st, (exs.map fun e => ContentBlock.toolUse e.callId e.toolName e.input).foldl
        (transformPart ti) st = { st with pending := st.pending ++ exs.map metaOf } := by
  induction exs with
  | nil =>
    intro st
    apply tst_ext <;> simp
  | cons e rest ih =>
    intro st
    have htool' : ∀ f ∈ rest, mapGet ti f.callId = some (metaOf f) :=
      fun f hf => htool f (List.mem_cons_of_mem e hf)
    have hid' : ∀ f ∈ rest, f.callId ≠ "" := fun f hf => hid f (List.mem_cons_of_mem e hf)
    rw [List.map_cons, List.foldl_cons]
    have hstep : transformPart ti st (ContentBlock.toolUse e.callId e.toolName e.input) =
        { st with pending := st.pending ++ [metaOf e] } := by
      simp only [transformPart, htool e (List.mem_cons_self e rest), Option.getD_some]
      rw [show strTruthy (metaOf e).id = true from
        strTruthy_of_ne (hid e (List.mem_cons_self e rest))]
      simp
    rw [hstep, ih htool' hid']
    apply tst_ext <;> simp

theorem buildToolSummaryText_ne (exs : List Exchange) (hne : exs ≠ []) :
    buildToolSummaryText (summaryOfExchanges exs) ≠ [] := by
  cases exs with
  | nil => exact absurd rfl hne
  | cons e rest =>
    intro hcon
    rw [buildToolSummaryText, List.append_eq_nil] at hcon
    obtain ⟨h1, h2⟩ := hcon
    cases herr : e.isErr with
    | true =>
      have hf : (summaryOfExchanges (e :: rest)).failureCount > 0 := by
        simp [summaryOfExchanges, List.filter_cons, herr]
      rw [if_pos hf] at h2
      split at h2 <;> simp at h2
    | false =>
      have hs : (summaryOfExchanges (e :: rest)).successCount > 0 := by
        simp [summaryOfExchanges, List.filter_cons, herr]
      rw [if_pos hs] at h1
      split at h1 <;> simp at h1

theorem transformAssistant_text (ti : ToolInfoMap) (acc : List Message) (m : Nat) (t : String)
    (exs : List Exchange) (hne : exs ≠ [])
    (hid : ∀ e ∈ exs, e.callId ≠ "") (hnm : ∀ e ∈ exs, e.toolName ≠ "")
    (htool : ∀ e ∈ exs, mapGet ti e.callId = some (metaOf e)) :
    transformAssistant ti acc (assistantToolMessage m (some t) exs)
        (assistantToolBlocks (some t) exs) = acc ++ [textToolMsg m t exs] := by
  have hfold : (assistantToolBlocks (some t) exs).foldl (transformPart ti)
      { summaryToolIds := (assistantToolMessage m (some t) exs).summaryToolIds.getD [] } =
      { content := [ContentBlock.text t]
        hasNonSummaryText := true
        summaryInfo := none
        summaryToolIds := []
        pending := exs.map metaOf } := by
    show (ContentBlock.text t ::
        exs.map fun e => ContentBlock.toolUse e.callId e.toolName e.input).foldl
      (transformPart ti) { summaryToolIds := [] } = _
    rw [List.foldl_cons, transformPart_text ti _ rfl t, transformPart_uses ti exs htool hid]
    apply tst_ext <;> simp
  have hst : appendBatch ((assistantToolBlocks (some t) exs).foldl (transformPart ti)
      { summaryToolIds := (assistantToolMessage m (some t) exs).summaryToolIds.getD [] }) =
      { content := [ContentBlock.text t]
        hasNonSummaryText := true
        summaryInfo := some (summaryOfExchanges exs)
        summaryToolIds := exs.map (·.callId)
        pending := [] } := by
    rw [hfold, appendBatch_eval _ exs hne hid hnm rfl rfl]
    apply tst_ext <;> simp
  simp only [transformAssistant]
  rw [hst]
  rfl

theorem cloneSummaryInfo_eq (i : SummaryInfo) : cloneSummaryInfo i = i := by
  cases i
  rfl

theorem transformAssistant_noText_push (ti : ToolInfoMap) (acc : List Message) (m : Nat)
    (exs : List Exchange) (hne : exs ≠ [])
    (hid : ∀ e ∈ exs, e.callId ≠ "") (hnm : ∀ e ∈ exs, e.toolName ≠ "")
    (htool : ∀ e ∈ exs, mapGet ti e.callId = some (metaOf e))
    (hnd : (exs.map (·.callId)).Nodup)
    (hlast : ∀ prev, acc.getLast? = some prev → mergeCond prev = false) :
    transformAssistant ti acc (assistantToolMessage m none exs)
        (assistantToolBlocks none exs) = acc ++ [summaryOnlyMsg m exs] := by
  have hlen : (buildToolSummaryText (summaryOfExchanges exs)).length > 0 :=
    List.length_pos.mpr (buildToolSummaryText_ne exs hne)
  have hidsne : exs.map (·.callId) ≠ [] := by
    simp only [ne_eq, List.map_eq_nil_iff]
    exact hne
  have hmapne : List.map ContentBlock.text (buildToolSummaryText (summaryOfExchanges exs)) ≠ [] := by
    simp only [ne_eq, List.map_eq_nil_iff]
    exact buildToolSummaryText_ne exs hne
  have hst : appendBatch ((assistantToolBlocks none exs).foldl (transformPart ti)
      { summaryToolIds := (assistantToolMessage m none exs).summaryToolIds.getD [] }) =
      { content := []
        hasNonSummaryText := false
        summaryInfo := some (summaryOfExchanges exs)
        summaryToolIds := exs.map (·.callId)
        pending := [] } := by
    show appendBatch ((exs.map fun e =>
        ContentBlock.toolUse e.callId e.toolName e.input).foldl (transformPart ti)
      { summaryToolIds := [] }) = _
    rw [transformPart_uses ti exs htool hid, appendBatch_eval _ exs hne hid hnm (by simp) rfl]
    apply tst_ext <;> simp
  have hcond : (!false && decide ((buildToolSummaryText (summaryOfExchanges exs)).length > 0))
      = true := by
    simp [hlen]
  simp only [transformAssistant]
  rw [hst]
  dsimp only
  rw [if_pos hcond]
  rw [if_pos hidsne, jsSetDedup_eq _ hnd]
  split
  next prev heq =>
    rw [hlast prev heq, if_neg Bool.false_ne_true, pushTransformed]
    dsimp only
    simp only [List.nil_append]
    rw [if_pos hmapne, if_neg (by simp), cloneSummaryInfo_eq]
    rfl
  next heq =>
    rw [pushTransformed]
    dsimp only
    simp only [List.nil_append]
    rw [if_pos hmapne, if_neg (by simp), cloneSummaryInfo_eq]
    rfl

theorem transformAssistant_noText_merge (ti : ToolInfoMap) (abridged : List Message)
    (prev : Message) (info0 : SummaryInfo) (m : Nat)
    (exs : List Exchange) (hne : exs ≠ [])
    (hid : ∀ e ∈ exs, e.callId ≠ "") (hnm : ∀ e ∈ exs, e.toolName ≠ "")
    (htool : ∀ e ∈ exs, mapGet ti e.callId = some (metaOf e))
    (hpend : IsPendingMsg prev info0) :
    transformAssistant ti (abridged ++ [prev]) (assistantToolMessage m none exs)
        (assistantToolBlocks none exs) =
      abridged ++ [mergedSummaryMsg prev (addSummaryInfo info0 (summaryOfExchanges exs))] := by
  obtain ⟨hrole, hcontent, ⟨md0, hmd, hts, hsi⟩, hh4⟩ := hpend
  have hlen : (buildToolSummaryText (summaryOfExchanges exs)).length > 0 :=
    List.length_pos.mpr (buildToolSummaryText_ne exs hne)
  have hidsne : exs.map (·.callId) ≠ [] := by
    simp only [ne_eq, List.map_eq_nil_iff]
    exact hne
  have hmc : mergeCond prev = true := by
    simp [mergeCond, hmd, hts, hh4]
  have hst : appendBatch ((assistantToolBlocks none exs).foldl (transformPart ti)
      { summaryToolIds := (assistantToolMessage m none exs).summaryToolIds.getD [] }) =
      { content := []
        hasNonSummaryText := false
        summaryInfo := some (summaryOfExchanges exs)
        summaryToolIds := exs.map (·.callId)
        pending := [] } := by
    show appendBatch ((exs.map fun e =>
        ContentBlock.toolUse e.callId e.toolName e.input).foldl (transformPart ti)
      { summaryToolIds := [] }) = _
    rw [transformPart_uses ti exs htool hid, appendBatch_eval _ exs hne hid hnm (by simp) rfl]
    apply tst_ext <;> simp
  have hcond : (!false && decide ((buildToolSummaryText (summaryOfExchanges exs)).length > 0))
      = true := by
    simp [hlen]
  simp only [transformAssistant]
  rw [hst]
  dsimp only
  rw [if_pos hcond]
  rw [if_pos hidsne]
  rw [List.getLast?_concat]
  dsimp only
  rw [hmc, if_pos rfl]
  rw [List.dropLast_concat]
  simp only [mergedSummaryMsg]
  rw [hmd]
  simp only [Option.getD_some]
  rw [hsi]
  simp only [Option.getD_some]
  rw [cloneSummaryInfo_eq]

theorem minimizeStep_assistantTool (ti : ToolInfoMap) (li : Option Nat)
    (lids : Option (List String)) (acc : List Message) (i m : Nat) (τ : Option String)
    (exs : List Exchange) (hli : (li == some i) = false) :
    minimizeStep ti li lids acc i (assistantToolMessage m τ exs) =
      transformAssistant ti acc (assistantToolMessage m τ exs) (assistantToolBlocks τ exs) := by
  rw [minimizeStep, if_neg (by rw [hli]; exact Bool.false_ne_true)]
  rfl

theorem minimizeStep_last (ti : ToolInfoMap) (li : Option Nat) (lids : Option (List String))
    (acc : List Message) (i : Nat) (msg : Message) (hli : (li == some i) = true) :
    minimizeStep ti li lids acc i msg = acc ++ [msg] := by
  rw [minimizeStep, if_pos hli]
  rfl

theorem minimizeStep_toolResult_skip (ti : ToolInfoMap) (li : Option Nat)
    (lids : Option (List String)) (acc : List Message) (i m : Nat) (exs : List Exchange)
    (hli : (li == some i) = false) (hne : exs ≠ [])
    (hno : ∀ ids, lids = some ids → ∀ f ∈ exs, ids.contains f.callId = false) :
    minimizeStep ti li lids acc i (toolResultMessage m exs) = acc := by
  rw [minimizeStep, if_neg (by rw [hli]; exact Bool.false_ne_true)]
  cases exs with
  | nil => exact absurd rfl hne
  | cons e rest =>
    cases hl : lids with
    | none => rfl
    | some ids =>
      have hany : (((e :: rest).map fun f =>
          ContentBlock.toolResult f.callId f.output f.isErr).any
          (fun p => match p with
            | ContentBlock.toolResult tuid _ _ => ids.contains tuid
            | _ => false)) = false := by
        rw [List.any_eq_false]
        intro p hp
        obtain ⟨f, hf, rfl⟩ := List.mem_map.mp hp
        show ¬(ids.contains f.callId = true)
        rw [hno ids hl f hf]
        exact Bool.false_ne_true
      show (if (((e :: rest).map fun f =>
          ContentBlock.toolResult f.callId f.output f.isErr).any
          (fun p => match p with
            | ContentBlock.toolResult tuid _ _ => ids.contains tuid
            | _ => false)) = true then
          acc ++ [cloneMessage (toolResultMessage m (e :: rest))] else acc) = acc
      rw [hany]
      rfl

theorem minimizeStep_toolResult_keep (ti : ToolInfoMap) (li : Option Nat)
    (acc : List Message) (i m : Nat) (exs : List Exchange) (ids : List String)
    (hli : (li == some i) = false) (hne : exs ≠ [])
    (hhit : ∃ f ∈ exs, ids.contains f.callId = true) :
    minimizeStep ti li (some ids) acc i (toolResultMessage m exs) =
      acc ++ [toolResultMessage m exs] := by
  rw [minimizeStep, if_neg (by rw [hli]; exact Bool.false_ne_true)]
  cases exs with
  | nil => exact absurd rfl hne
  | cons e rest =>
    have hany : (((e :: rest).map fun f =>
        ContentBlock.toolResult f.callId f.output f.isErr).any
        (fun p => match p with
          | ContentBlock.toolResult tuid _ _ => ids.contains tuid
          | _ => false)) = true := by
      rw [List.any_eq_true]
      obtain ⟨f, hf, hc⟩ := hhit
      refine ⟨ContentBlock.toolResult f.callId f.output f.isErr, List.mem_map.mpr ⟨f, hf, rfl⟩, ?_⟩
      exact hc
    show (if (((e :: rest).map fun f =>
        ContentBlock.toolResult f.callId f.output f.isErr).any
        (fun p => match p with
          | ContentBlock.toolResult tuid _ _ => ids.contains tuid
          | _ => false)) = true then
        acc ++ [cloneMessage (toolResultMessage m (e :: rest))] else acc) =
      acc ++ [toolResultMessage m (e :: rest)]
    rw [hany]
    rfl

theorem isPendingMsg_summaryOnly (n : Nat) (exs : List Exchange) :
    IsPendingMsg (summaryOnlyMsg n exs) (summaryOfExchanges exs) :=
  ⟨rfl, rfl, ⟨_, rfl, rfl, rfl⟩, rfl⟩

theorem isPendingMsg_merged {prev : Message} {info0 : SummaryInfo}
    (h : IsPendingMsg prev info0) (c : SummaryInfo) :
    IsPendingMsg (mergedSummaryMsg prev c) c := by
  obtain ⟨h1, h2, ⟨md, hmd, hts, hsi⟩, h4⟩ := h
  refine ⟨h1, rfl, ⟨{ md with summaryInfo := some c }, ?_, hts, rfl⟩, rfl⟩
  simp only [mergedSummaryMsg, hmd, Option.getD_some]

theorem mergeCond_userText (n : Nat) (s : String) :
    mergeCond (userTextMessage n s) = false := rfl

theorem mergeCond_assistantText (n : Nat) (s : String) :
    mergeCond (assistantTextMessage n s) = false := rfl

theorem mergeCond_textToolMsg (m : Nat) (t : String) (exs : List Exchange) :
    mergeCond (textToolMsg m t exs) = false := rfl

theorem turnOK_toolTurn {τ : Option String} {exs : List Exchange}
    (h : turnOK (Turn.toolTurn τ exs) = true) :
    exs ≠ [] ∧ (∀ e ∈ exs, e.callId ≠ "") ∧ (∀ e ∈ exs, e.toolName ≠ "") := by
  simp only [turnOK, Bool.and_eq_true, List.all_eq_true] at h
  refine ⟨?_, ?_, ?_⟩
  · intro hc
    subst hc
    simp at h
  · intro e he
    have h2 := h.2 e he
    simp only [Bool.and_eq_true, decide_eq_true_eq] at h2
    exact h2.1
  · intro e he
    have h2 := h.2 e he
    simp only [Bool.and_eq_true, decide_eq_true_eq] at h2
    exact h2.2

theorem processPre (ti : ToolInfoMap) (li : Option Nat) (lids : Option (List String)) :
    ∀ (pre : List Turn) (n : Nat) (P : Option (Message × SummaryInfo))
      (abridged : List Message),
    (∀ j, n ≤ j → j < n + msgLen pre → li ≠ some j) →
    (∀ t ∈ pre, turnOK t = true) →
    (∀ t ∈ pre, ∀ τ exs, t = Turn.toolTurn τ exs → (exs.map (·.callId)).Nodup) →
    (∀ t ∈ pre, ∀ τ exs, t = Turn.toolTurn τ exs → ∀ e ∈ exs,
        mapGet ti e.callId = some (metaOf e)) →
    (∀ t ∈ pre, ∀ τ exs, t = Turn.toolTurn τ exs → ∀ e ∈ exs, ∀ ids, lids = some ids →
        ids.contains e.callId = false) →
    PendingInv abridged P →
    minimizeLoop ti li lids n (denote n pre) (abridged ++ pendingToList P) =
      abridged ++ (renderPre n P pre).1 ++ pendingToList (renderPre n P pre).2 := by
  intro pre
  induction pre with
  | nil =>
    intro n P abridged _ _ _ _ _ _
    show abridged ++ pendingToList P = _
    show _ = abridged ++ [] ++ pendingToList P
    simp
  | cons t rest ih =>
    intro n P abridged hli hok hnd htool hdisj hpinv
    have hmsglen : msgLen (t :: rest) = turnLen t + msgLen rest := by
      simp [msgLen]
    have hline : (li == some n) = false := by
      rw [beq_eq_false_iff_ne]
      refine hli n (Nat.le_refl n) ?_
      have := turnLen_pos t
      omega
    have hokr : ∀ u ∈ rest, turnOK u = true :=
      fun u hu => hok u (List.mem_cons_of_mem t hu)
    have hndr : ∀ u ∈ rest, ∀ τ exs, u = Turn.toolTurn τ exs → (exs.map (·.callId)).Nodup :=
      fun u hu => hnd u (List.mem_cons_of_mem t hu)
    have htoolr : ∀ u ∈ rest, ∀ τ exs, u = Turn.toolTurn τ exs → ∀ e ∈ exs,
        mapGet ti e.callId = some (metaOf e) :=
      fun u hu => htool u (List.mem_cons_of_mem t hu)
    have hdisjr : ∀ u ∈ rest, ∀ τ exs, u = Turn.toolTurn τ exs → ∀ e ∈ exs, ∀ ids,
        lids = some ids → ids.contains e.callId = false :=
      fun u hu => hdisj u (List.mem_cons_of_mem t hu)
    have hlir : ∀ j, n + turnLen t ≤ j → j < n + turnLen t + msgLen rest → li ≠ some j := by
      intro j h1 h2
      refine hli j (by omega) (by omega)
    cases t with
    | userText s =>
      have hrp1 : (renderPre n P (Turn.userText s :: rest)).1 =
          pendingToList P ++ [userTextMessage (n + 1) s] ++ (renderPre (n + 1) none rest).1 := rfl
      have hrp2 : (renderPre n P (Turn.userText s :: rest)).2 =
          (renderPre (n + 1) none rest).2 := rfl
      have hpinv' : PendingInv ((abridged ++ pendingToList P) ++ [userTextMessage (n + 1) s])
          none := by
        simp only [PendingInv, List.getLast?_concat]
        exact mergeCond_userText (n + 1) s
      show minimizeLoop ti li lids (n + 1) (denote (n + 1) rest)
          (minimizeStep ti li lids (abridged ++ pendingToList P) n
            (userTextMessage (n + 1) s)) = _
      rw [minimizeStep_str ti li lids _ n _ s rfl]
      rw [show (abridged ++ pendingToList P) ++ [userTextMessage (n + 1) s] =
          ((abridged ++ pendingToList P) ++ [userTextMessage (n + 1) s]) ++ pendingToList none
        from (List.append_nil _).symm]
      rw [ih (n + 1) none _ hlir hokr hndr htoolr hdisjr hpinv']
      rw [hrp1, hrp2]
      simp [List.append_assoc]
    | assistantText s =>
      have hrp1 : (renderPre n P (Turn.assistantText s :: rest)).1 =
          pendingToList P ++ [assistantTextMessage (n + 1) s] ++
            (renderPre (n + 1) none rest).1 := rfl
      have hrp2 : (renderPre n P (Turn.assistantText s :: rest)).2 =
          (renderPre (n + 1) none rest).2 := rfl
      have hpinv' : PendingInv ((abridged ++ pendingToList P) ++
          [assistantTextMessage (n + 1) s]) none := by
        simp only [PendingInv, List.getLast?_concat]
        exact mergeCond_assistantText (n + 1) s
      show minimizeLoop ti li lids (n + 1) (denote (n + 1) rest)
          (minimizeStep ti li lids (abridged ++ pendingToList P) n
            (assistantTextMessage (n + 1) s)) = _
      rw [minimizeStep_str ti li lids _ n _ s rfl]
      rw [show (abridged ++ pendingToList P) ++ [assistantTextMessage (n + 1) s] =
          ((abridged ++ pendingToList P) ++ [assistantTextMessage (n + 1) s]) ++
            pendingToList none
        from (List.append_nil _).symm]
      rw [ih (n + 1) none _ hlir hokr hndr htoolr hdisjr hpinv']
      rw [hrp1, hrp2]
      simp [List.append_assoc]
    | toolTurn τ exs =>
      obtain ⟨hne, hid, hnm⟩ :=
        turnOK_toolTurn (hok _ (List.mem_cons_self _ rest))
      have htool0 : ∀ e ∈ exs, mapGet ti e.callId = some (metaOf e) :=
        htool _ (List.mem_cons_self _ rest) τ exs rfl
      have hnd0 : (exs.map (·.callId)).Nodup :=
        hnd _ (List.mem_cons_self _ rest) τ exs rfl
      have hno : ∀ ids, lids = some ids → ∀ f ∈ exs, ids.contains f.callId = false :=
        fun ids hids f hf => hdisj _ (List.mem_cons_self _ rest) τ exs rfl f hf ids hids
      have hline2 : (li == some (n + 1)) = false := by
        rw [beq_eq_false_iff_ne]
        refine hli (n + 1) (by omega) (by simp only [hmsglen, turnLen]; omega)
      show minimizeLoop ti li lids (n + 2) (denote (n + 2) rest)
          (minimizeStep ti li lids
            (minimizeStep ti li lids (abridged ++ pendingToList P) n
              (assistantToolMessage (n + 1) τ exs))
            (n + 1) (toolResultMessage (n + 2) exs)) = _
      rw [minimizeStep_assistantTool ti li lids _ n (n + 1) τ exs hline]
      cases τ with
      | some t0 =>
        have hrp1 : (renderPre n P (Turn.toolTurn (some t0) exs :: rest)).1 =
            pendingToList P ++ [textToolMsg (n + 1) t0 exs] ++
              (renderPre (n + 2) none rest).1 := rfl
        have hrp2 : (renderPre n P (Turn.toolTurn (some t0) exs :: rest)).2 =
            (renderPre (n + 2) none rest).2 := rfl
        have hpinv' : PendingInv ((abridged ++ pendingToList P) ++
            [textToolMsg (n + 1) t0 exs]) none := by
          simp only [PendingInv, List.getLast?_concat]
          exact mergeCond_textToolMsg (n + 1) t0 exs
        rw [transformAssistant_text ti _ (n + 1) t0 exs hne hid hnm htool0]
        rw [minimizeStep_toolResult_skip ti li lids _ (n + 1) (n + 2) exs hline2 hne hno]
        rw [show (abridged ++ pendingToList P) ++ [textToolMsg (n + 1) t0 exs] =
            ((abridged ++ pendingToList P) ++ [textToolMsg (n + 1) t0 exs]) ++
              pendingToList none
          from (List.append_nil _).symm]
        rw [ih (n + 2) none _ hlir hokr hndr htoolr hdisjr hpinv']
        rw [hrp1, hrp2]
        simp [List.append_assoc]
      | none =>
        cases P with
        | none =>
          have hrp : renderPre n none (Turn.toolTurn none exs :: rest) =
              renderPre (n + 2)
                (some (summaryOnlyMsg (n + 1) exs, summaryOfExchanges exs)) rest := rfl
          have hlastcond : ∀ prev, (abridged ++ pendingToList none).getLast? = some prev →
              mergeCond prev = false := by
            intro prev hp
            simp only [pendingToList, List.append_nil] at hp
            have hpinv2 := hpinv
            simp only [PendingInv] at hpinv2
            rw [hp] at hpinv2
            exact hpinv2
          rw [transformAssistant_noText_push ti _ (n + 1) exs hne hid hnm htool0 hnd0 hlastcond]
          rw [minimizeStep_toolResult_skip ti li lids _ (n + 1) (n + 2) exs hline2 hne hno]
          have hpinv' : PendingInv abridged
              (some (summaryOnlyMsg (n + 1) exs, summaryOfExchanges exs)) :=
            isPendingMsg_summaryOnly (n + 1) exs
          rw [show (abridged ++ pendingToList none) ++ [summaryOnlyMsg (n + 1) exs] =
              abridged ++ pendingToList
                (some (summaryOnlyMsg (n + 1) exs, summaryOfExchanges exs))
            from by simp [pendingToList]]
          rw [ih (n + 2) _ _ hlir hokr hndr htoolr hdisjr hpinv']
          rw [hrp]
        | some pr =>
          obtain ⟨prev, info0⟩ := pr
          have hpend : IsPendingMsg prev info0 := hpinv
          have hrp : renderPre n (some (prev, info0)) (Turn.toolTurn none exs :: rest) =
              renderPre (n + 2)
                (some (mergedSummaryMsg prev (addSummaryInfo info0 (summaryOfExchanges exs)),
                  addSummaryInfo info0 (summaryOfExchanges exs))) rest := rfl
          rw [show abridged ++ pendingToList (some (prev, info0)) = abridged ++ [prev]
            from rfl]
          rw [transformAssistant_noText_merge ti abridged prev info0 (n + 1) exs hne hid hnm
            htool0 hpend]
          rw [minimizeStep_toolResult_skip ti li lids _ (n + 1) (n + 2) exs hline2 hne hno]
          have hpinv' : PendingInv abridged
              (some (mergedSummaryMsg prev (addSummaryInfo info0 (summaryOfExchanges exs)),
                addSummaryInfo info0 (summaryOfExchanges exs))) :=
            isPendingMsg_merged hpend _
          rw [show abridged ++
              [mergedSummaryMsg prev (addSummaryInfo info0 (summaryOfExchanges exs))] =
              abridged ++ pendingToList
                (some (mergedSummaryMsg prev (addSummaryInfo info0 (summaryOfExchanges exs)),
                  addSummaryInfo info0 (summaryOfExchanges exs)))
            from rfl]
          rw [ih (n + 2) _ _ hlir hokr hndr htoolr hdisjr hpinv']
          rw [hrp]

theorem allCallIds_decomp (pre post : List Turn) (τ : Option String) (exs : List Exchange) :
    allCallIds (pre ++ Turn.toolTurn τ exs :: post) =
      allCallIds pre ++ (exs.map (·.callId) ++ allCallIds post) := by
  simp [allCallIds, turnCallIds]

theorem minimize_decomp (pre post : List Turn) (τ : Option String) (exs : List Exchange)
    (hpost : hasToolTurn post = false)
    (hwf : turnsWF (pre ++ Turn.toolTurn τ exs :: post)) :
    getHistoryViewFn (denote 0 (pre ++ Turn.toolTurn τ exs :: post)) true 0 =
      (renderPre 0 none pre).1 ++ pendingToList (renderPre 0 none pre).2 ++
        assistantToolMessage (msgLen pre + 1) τ exs ::
        toolResultMessage (msgLen pre + 2) exs :: denote (msgLen pre + 2) post := by
  obtain ⟨hok, hndall⟩ := hwf
  have hokmem : ∀ t ∈ pre ++ Turn.toolTurn τ exs :: post, turnOK t = true :=
    List.all_eq_true.mp hok
  obtain ⟨hne, hid, hnm⟩ : _ ∧ _ ∧ _ :=
    turnOK_toolTurn (hokmem (Turn.toolTurn τ exs) (by simp))
  have hndids := hndall
  rw [allCallIds_decomp] at hndids
  have hdec : denote 0 (pre ++ Turn.toolTurn τ exs :: post) =
      denote 0 pre ++ (assistantToolMessage (msgLen pre + 1) τ exs ::
        toolResultMessage (msgLen pre + 2) exs :: denote (msgLen pre + 2) post) := by
    rw [show pre ++ Turn.toolTurn τ exs :: post = pre ++ (Turn.toolTurn τ exs :: post) from rfl]
    rw [denote_append, Nat.zero_add]
    rfl
  have hli := lastIdx_main pre post τ exs hne hpost
  have hlids := lastIds_main pre post τ exs
  have hview : getHistoryViewFn (denote 0 (pre ++ Turn.toolTurn τ exs :: post)) true 0 =
      minimizeHistory (denote 0 (pre ++ Turn.toolTurn τ exs :: post)) := by
    simp [getHistoryViewFn]
  rw [hview]
  simp only [minimizeHistory]
  rw [hli, hlids]
  set ti := buildToolInfo (denote 0 (pre ++ Turn.toolTurn τ exs :: post)) with hti
  have h1 : ∀ j, 0 ≤ j → j < 0 + msgLen pre → some (msgLen pre) ≠ some j := by
    intro j _ hj hc
    have := Option.some.inj hc
    omega
  have h2 : ∀ t ∈ pre, turnOK t = true :=
    fun t ht => hokmem t (List.mem_append_left _ ht)
  have h3 : ∀ t ∈ pre, ∀ τ' exs', t = Turn.toolTurn τ' exs' → (exs'.map (·.callId)).Nodup := by
    intro t ht τ' exs' htt
    have := (List.nodup_flatMap.mp hndall).1 t (List.mem_append_left _ ht)
    rw [htt] at this
    exact this
  have h4 : ∀ t ∈ pre, ∀ τ' exs', t = Turn.toolTurn τ' exs' → ∀ e ∈ exs',
      mapGet ti e.callId = some (metaOf e) := by
    intro t ht τ' exs' htt e he
    rw [hti]
    subst htt
    obtain ⟨p₁, p₂, hsplit⟩ := List.append_of_mem ht
    have hts : pre ++ Turn.toolTurn τ exs :: post =
        p₁ ++ [Turn.toolTurn τ' exs'] ++ (p₂ ++ Turn.toolTurn τ exs :: post) := by
      rw [hsplit]
      simp
    rw [hts]
    refine buildToolInfo_denote p₁ (p₂ ++ Turn.toolTurn τ exs :: post) τ' exs' 0 ?_ he
    rw [← hts]
    exact ⟨hok, hndall⟩
  have h5 : ∀ t ∈ pre, ∀ τ' exs', t = Turn.toolTurn τ' exs' → ∀ e ∈ exs', ∀ ids,
      (some (exs.map (·.callId)) : Option (List String)) = some ids →
      ids.contains e.callId = false := by
    intro t ht τ' exs' htt e he ids hids
    have hids' : ids = exs.map (·.callId) := (Option.some.inj hids).symm
    subst hids'
    have hmem : e.callId ∈ allCallIds pre := by
      rw [allCallIds]
      refine List.mem_flatMap.mpr ⟨t, ht, ?_⟩
      rw [htt, turnCallIds]
      exact List.mem_map.mpr ⟨e, he, rfl⟩
    have hnotin : e.callId ∉ exs.map (·.callId) := by
      intro hc
      exact (List.disjoint_of_nodup_append hndids) hmem (List.mem_append_left _ hc)
    simp only [List.contains, List.elem_eq_mem, decide_eq_false_iff_not]
    exact hnotin
  have h6 : PendingInv [] none := trivial
  have hinner : minimizeLoop ti
      (some (msgLen pre)) (some (exs.map (·.callId))) 0 (denote 0 pre) [] =
      (renderPre 0 none pre).1 ++ pendingToList (renderPre 0 none pre).2 := by
    have hp := processPre ti
      (some (msgLen pre)) (some (exs.map (·.callId))) pre 0 none [] h1 h2 h3 h4 h5 h6
    simpa [pendingToList] using hp
  have hlineA : ((some (msgLen pre) : Option Nat) == some (msgLen pre)) = true := by simp
  have hlineR : ((some (msgLen pre) : Option Nat) == some (msgLen pre + 1)) = false := by
    rw [beq_eq_false_iff_ne]
    intro hc
    have := Option.some.inj hc
    omega
  have hhit : ∃ f ∈ exs, (exs.map (·.callId)).contains f.callId = true := by
    obtain ⟨f, hf⟩ := List.exists_mem_of_ne_nil exs hne
    refine ⟨f, hf, ?_⟩
    simp only [List.contains, List.elem_eq_mem, decide_eq_true_eq]
    exact List.mem_map.mpr ⟨f, hf, rfl⟩
  rw [hdec, minimizeLoop_append, hinner, denote_length, Nat.zero_add]
  show minimizeLoop ti
      (some (msgLen pre)) (some (exs.map (·.callId))) (msgLen pre + 1)
      (toolResultMessage (msgLen pre + 2) exs :: denote (msgLen pre + 2) post)
      (minimizeStep ti
        (some (msgLen pre)) (some (exs.map (·.callId)))
        ((renderPre 0 none pre).1 ++ pendingToList (renderPre 0 none pre).2) (msgLen pre)
        (assistantToolMessage (msgLen pre + 1) τ exs)) = _
  rw [minimizeStep_last _ _ _ _ _ _ hlineA]
  show minimizeLoop ti
      (some (msgLen pre)) (some (exs.map (·.callId))) (msgLen pre + 2)
      (denote (msgLen pre + 2) post)
      (minimizeStep ti
        (some (msgLen pre)) (some (exs.map (·.callId)))
        ((renderPre 0 none pre).1 ++ pendingToList (renderPre 0 none pre).2 ++
          [assistantToolMessage (msgLen pre + 1) τ exs]) (msgLen pre + 1)
        (toolResultMessage (msgLen pre + 2) exs)) = _
  rw [minimizeStep_toolResult_keep _ _ _ _ _ _ _ hlineR hne hhit]
  rw [minimizeLoop_passthrough _ _ _ post hpost]
  simp [List.append_assoc]

theorem flushObs_pending (P : Option (Message × SummaryInfo)) (h : PendingInv [] P) :
    (pendingToList P).map obs = flushObs (P.map Prod.snd) := by
  cases P with
  | none => rfl
  | some pr =>
    obtain ⟨prev, info⟩ := pr
    obtain ⟨h1, h2, _, _⟩ := h
    simp [pendingToList, flushObs, obs, h1, h2]

theorem specRenderGo_toolfree (post : List Turn) (hpost : hasToolTurn post = false) :
    ∀ n, specRenderGo none post = (denote n post).map obs := by
  induction post with
  | nil => intro n; rfl
  | cons t rest ih =>
    intro n
    have hrest : hasToolTurn rest = false := by
      simp only [hasToolTurn, List.any_cons, Bool.or_eq_false_iff] at hpost
      exact hpost.2
    cases t with
    | userText s =>
      show ("user", Content.str s) :: specRenderGo none rest = _
      rw [ih hrest (n + 1)]
      rfl
    | assistantText s =>
      show ("assistant", Content.str s) :: specRenderGo none rest = _
      rw [ih hrest (n + 1)]
      rfl
    | toolTurn τ exs =>
      simp only [hasToolTurn, List.any_cons] at hpost
      exact absurd hpost (by simp)

theorem specRenderGo_lastTurn (S : Option SummaryInfo) (τ : Option String)
    (exs : List Exchange) (post : List Turn) (hpost : hasToolTurn post = false) :
    specRenderGo S (Turn.toolTurn τ exs :: post) =
      flushObs S ++
        [("assistant", Content.blocks (assistantToolBlocks τ exs)),
         ("user", Content.blocks
           (exs.map fun e => ContentBlock.toolResult e.callId e.output e.isErr))] ++
        specRenderGo none post := by
  have heq : specRenderGo S (Turn.toolTurn τ exs :: post) =
      if hasToolTurn post = true then
        (match τ with
        | none => specRenderGo (some (specPendingAdd S (summaryOfExchanges exs))) post
        | some t =>
          flushObs S ++
            [("assistant", Content.blocks
              (ContentBlock.text t :: summaryTextBlocks (summaryOfExchanges exs)))] ++
            specRenderGo none post)
      else
        flushObs S ++
          [("assistant", Content.blocks (assistantToolBlocks τ exs)),
           ("user", Content.blocks
             (exs.map fun e => ContentBlock.toolResult e.callId e.output e.isErr))] ++
          specRenderGo none post := rfl
  rw [heq, hpost]
  rfl

theorem renderPre_spec (suffix : List Turn) (hsuf : hasToolTurn suffix = true) :
    ∀ (pre : List Turn) (n : Nat) (P : Option (Message × SummaryInfo)),
    PendingInv [] P →
    (specRenderGo (P.map Prod.snd) (pre ++ suffix) =
      ((renderPre n P pre).1).map obs ++
        specRenderGo ((renderPre n P pre).2.map Prod.snd) suffix) ∧
    PendingInv [] (renderPre n P pre).2 := by
  intro pre
  induction pre with
  | nil =>
    intro n P hP
    refine ⟨?_, hP⟩
    simp [renderPre]
  | cons t rest ih =>
    intro n P hP
    have happ : hasToolTurn (rest ++ suffix) = true := by
      simp only [hasToolTurn, List.any_append]
      simp only [hasToolTurn] at hsuf
      simp [hsuf]
    cases t with
    | userText s =>
      obtain ⟨hstep1, hstep2⟩ := ih (n + 1) none trivial
      simp only [Option.map_none'] at hstep1
      refine ⟨?_, hstep2⟩
      rw [List.cons_append]
      show flushObs (P.map Prod.snd) ++ [("user", Content.str s)] ++
          specRenderGo none (rest ++ suffix) = _
      rw [hstep1, ← flushObs_pending P hP]
      show _ = (pendingToList P ++ [userTextMessage (n + 1) s] ++
          (renderPre (n + 1) none rest).1).map obs ++
        specRenderGo ((renderPre (n + 1) none rest).2.map Prod.snd) suffix
      simp [obs, userTextMessage, List.append_assoc]
    | assistantText s =>
      obtain ⟨hstep1, hstep2⟩ := ih (n + 1) none trivial
      simp only [Option.map_none'] at hstep1
      refine ⟨?_, hstep2⟩
      rw [List.cons_append]
      show flushObs (P.map Prod.snd) ++ [("assistant", Content.str s)] ++
          specRenderGo none (rest ++ suffix) = _
      rw [hstep1, ← flushObs_pending P hP]
      show _ = (pendingToList P ++ [assistantTextMessage (n + 1) s] ++
          (renderPre (n + 1) none rest).1).map obs ++
        specRenderGo ((renderPre (n + 1) none rest).2.map Prod.snd) suffix
      simp [obs, assistantTextMessage, List.append_assoc]
    | toolTurn τ exs =>
      cases τ with
      | some t0 =>
        obtain ⟨hstep1, hstep2⟩ := ih (n + 2) none trivial
        simp only [Option.map_none'] at hstep1
        refine ⟨?_, hstep2⟩
        rw [List.cons_append]
        have heq : specRenderGo (P.map Prod.snd)
            (Turn.toolTurn (some t0) exs :: (rest ++ suffix)) =
            if hasToolTurn (rest ++ suffix) = true then
              flushObs (P.map Prod.snd) ++
                [("assistant", Content.blocks
                  (ContentBlock.text t0 :: summaryTextBlocks (summaryOfExchanges exs)))] ++
                specRenderGo none (rest ++ suffix)
            else
              flushObs (P.map Prod.snd) ++
                [("assistant", Content.blocks (assistantToolBlocks (some t0) exs)),
                 ("user", Content.blocks
                   (exs.map fun e => ContentBlock.toolResult e.callId e.output e.isErr))] ++
                specRenderGo none (rest ++ suffix) := rfl

        rw [heq, happ, if_pos rfl, hstep1, ← flushObs_pending P hP]
        show _ = (pendingToList P ++ [textToolMsg (n + 1) t0 exs] ++
            (renderPre (n + 2) none rest).1).map obs ++
          specRenderGo ((renderPre (n + 2) none rest).2.map Prod.snd) suffix
        simp [obs, textToolMsg, List.append_assoc]
      | none =>
        cases P with
        | none =>
          obtain ⟨hstep1, hstep2⟩ :=
            ih (n + 2) (some (summaryOnlyMsg (n + 1) exs, summaryOfExchanges exs))
              (isPendingMsg_summaryOnly (n + 1) exs)
          simp only [Option.map_some'] at hstep1
          refine ⟨?_, hstep2⟩
          rw [List.cons_append]
          have heq : specRenderGo ((none : Option (Message × SummaryInfo)).map Prod.snd)
              (Turn.toolTurn none exs :: (rest ++ suffix)) =
              if hasToolTurn (rest ++ suffix) = true then
                specRenderGo (some (summaryOfExchanges exs)) (rest ++ suffix)
              else
                [("assistant", Content.blocks (assistantToolBlocks none exs)),
                 ("user", Content.blocks
                   (exs.map fun e => ContentBlock.toolResult e.callId e.output e.isErr))] ++
                  specRenderGo none (rest ++ suffix) := rfl
          rw [heq, happ, if_pos rfl]
          exact hstep1
        | some pr =>
          obtain ⟨prev, info0⟩ := pr
          have hpend : IsPendingMsg prev info0 := hP
          obtain ⟨hstep1, hstep2⟩ :=
            ih (n + 2)
              (some (mergedSummaryMsg prev (addSummaryInfo info0 (summaryOfExchanges exs)),
                addSummaryInfo info0 (summaryOfExchanges exs)))
              (isPendingMsg_merged hpend _)
          simp only [Option.map_some'] at hstep1
          refine ⟨?_, hstep2⟩
          rw [List.cons_append]
          have heq : specRenderGo ((some (prev, info0)).map Prod.snd)
              (Turn.toolTurn none exs :: (rest ++ suffix)) =
              if hasToolTurn (rest ++ suffix) = true then
                specRenderGo (some (addSummaryInfo info0 (summaryOfExchanges exs)))
                  (rest ++ suffix)
              else
                flushObs (some info0) ++
                  [("assistant", Content.blocks (assistantToolBlocks none exs)),
                   ("user", Content.blocks
                     (exs.map fun e => ContentBlock.toolResult e.callId e.output e.isErr))] ++
                  specRenderGo none (rest ++ suffix) := rfl
          rw [heq, happ, if_pos rfl]
          exact hstep1

/-- C4: for every canonical history decomposed as earlier turns, a final
tool-bearing assistant turn and trailing tool-free turns, `getHistoryView(true)`
(i) observably equals the specified view `specRender`: earlier tool-bearing
assistant messages are replaced by synthetic success/failure summary lines,
adjacent summary-only messages merge into one, earlier `ToolResult`-only user
messages are omitted, and plain text messages pass through; and (ii) the last
tool-bearing assistant message and its correlated tool-result user message
appear verbatim (deep-equal to the canonical messages) at consecutive
positions of the view. -/
theorem historyView_minimization (pre post : List Turn) (τ : Option String)
    (exs : List Exchange) (hpost : hasToolTurn post = false)
    (hwf : turnsWF (pre ++ Turn.toolTurn τ exs :: post)) :
    ((getHistoryViewFn (denote 0 (pre ++ Turn.toolTurn τ exs :: post)) true 0).map obs =
      specRender (pre ++ Turn.toolTurn τ exs :: post)) ∧
    ∃ k,
      (getHistoryViewFn (denote 0 (pre ++ Turn.toolTurn τ exs :: post)) true 0).get? k =
        some (assistantToolMessage (msgLen pre + 1) τ exs) ∧
      (getHistoryViewFn (denote 0 (pre ++ Turn.toolTurn τ exs :: post)) true 0).get? (k + 1) =
        some (toolResultMessage (msgLen pre + 2) exs) := by
  have hdecomp := minimize_decomp pre post τ exs hpost hwf
  have hsuf : hasToolTurn (Turn.toolTurn τ exs :: post) = true := by
    simp [hasToolTurn]
  obtain ⟨hglue1, hglue2⟩ :=
    renderPre_spec (Turn.toolTurn τ exs :: post) hsuf pre 0 none trivial
  simp only [Option.map_none'] at hglue1
  have hres : (renderPre 0 none pre).1 ++ pendingToList (renderPre 0 none pre).2 ++
      assistantToolMessage (msgLen pre + 1) τ exs ::
        toolResultMessage (msgLen pre + 2) exs :: denote (msgLen pre + 2) post =
      ((renderPre 0 none pre).1 ++ pendingToList (renderPre 0 none pre).2) ++
        (assistantToolMessage (msgLen pre + 1) τ exs ::
          toolResultMessage (msgLen pre + 2) exs :: denote (msgLen pre + 2) post) := by
    simp [List.append_assoc]
  constructor
  · rw [hdecomp, specRender, hglue1,
      specRenderGo_lastTurn _ τ exs post hpost,
      ← flushObs_pending _ hglue2,
      specRenderGo_toolfree post hpost (msgLen pre + 2)]
    simp [obs, List.map_append, List.append_assoc, assistantToolMessage, toolResultMessage]
  · refine ⟨((renderPre 0 none pre).1 ++ pendingToList (renderPre 0 none pre).2).length,
      ?_, ?_⟩
    · rw [hdecomp, hres, List.get?_append_right (Nat.le_refl _), Nat.sub_self]
      rfl
    · rw [hdecomp, hres, List.get?_append_right (by omega)]
      have harith : ((renderPre 0 none pre).1 ++
          pendingToList (renderPre 0 none pre).2).length + 1 -
          ((renderPre 0 none pre).1 ++ pendingToList (renderPre 0 none pre).2).length = 1 := by
        omega
      rw [harith]
      rfl

/-- Witness for C4 at a concrete history: two adjacent summary-only tool turns
before the final tool turn, a trailing text turn. -/
theorem historyView_minimization_witness :
    (hasToolTurn [Turn.assistantText "done"] = false ∧
      turnsWF ([Turn.userText "hi",
          Turn.toolTurn none [⟨"c1", "alpha", "i1", "o1", false⟩],
          Turn.toolTurn none [⟨"c2", "beta", "i2", "o2", true⟩]] ++
        Turn.toolTurn (some "working") [⟨"c3", "gamma", "i3", "o3", false⟩] ::
          [Turn.assistantText "done"])) ∧
    (((getHistoryViewFn (denote 0 ([Turn.userText "hi",
          Turn.toolTurn none [⟨"c1", "alpha", "i1", "o1", false⟩],
          Turn.toolTurn none [⟨"c2", "beta", "i2", "o2", true⟩]] ++
        Turn.toolTurn (some "working") [⟨"c3", "gamma", "i3", "o3", false⟩] ::
          [Turn.assistantText "done"])) true 0).map obs =
      specRender ([Turn.userText "hi",
          Turn.toolTurn none [⟨"c1", "alpha", "i1", "o1", false⟩],
          Turn.toolTurn none [⟨"c2", "beta", "i2", "o2", true⟩]] ++
        Turn.toolTurn (some "working") [⟨"c3", "gamma", "i3", "o3", false⟩] ::
          [Turn.assistantText "done"])) ∧
    ∃ k,
      (getHistoryViewFn (denote 0 ([Turn.userText "hi",
          Turn.toolTurn none [⟨"c1", "alpha", "i1", "o1", false⟩],
          Turn.toolTurn none [⟨"c2", "beta", "i2", "o2", true⟩]] ++
        Turn.toolTurn (some "working") [⟨"c3", "gamma", "i3", "o3", false⟩] ::
          [Turn.assistantText "done"])) true 0).get? k =
        some (assistantToolMessage
          (msgLen [Turn.userText "hi",
            Turn.toolTurn none [⟨"c1", "alpha", "i1", "o1", false⟩],
            Turn.toolTurn none [⟨"c2", "beta", "i2", "o2", true⟩]] + 1)
          (some "working") [⟨"c3", "gamma", "i3", "o3", false⟩]) ∧
      (getHistoryViewFn (denote 0 ([Turn.userText "hi",
          Turn.toolTurn none [⟨"c1", "alpha", "i1", "o1", false⟩],
          Turn.toolTurn none [⟨"c2", "beta", "i2", "o2", true⟩]] ++
        Turn.toolTurn (some "working") [⟨"c3", "gamma", "i3", "o3", false⟩] ::
          [Turn.assistantText "done"])) true 0).get? (k + 1) =
        some (toolResultMessage
          (msgLen [Turn.userText "hi",
            Turn.toolTurn none [⟨"c1", "alpha", "i1", "o1", false⟩],
            Turn.toolTurn none [⟨"c2", "beta", "i2", "o2", true⟩]] + 2)
          [⟨"c3", "gamma", "i3", "o3", false⟩])) :=
  ⟨⟨by decide, by exact ⟨by decide, by decide⟩⟩,
    historyView_minimization
      [Turn.userText "hi",
        Turn.toolTurn none [⟨"c1", "alpha", "i1", "o1", false⟩],
        Turn.toolTurn none [⟨"c2", "beta", "i2", "o2", true⟩]]
      [Turn.assistantText "done"]
      (some "working") [⟨"c3", "gamma", "i3", "o3", false⟩]
      (by decide) (by exact ⟨by decide, by decide⟩)⟩

end VibeCoder
